import Mathlib

/- Shallow embedding of the translation-service core:
   src/app.py, src/cache/translation_cache.py,
   src/models/marian_translator.py, src/utils/text_preprocessing.py.
   Text is modelled as List Char (Python str is a sequence of code points);
   machine words in the digest are Nat reduced mod 2^32. -/

namespace TransService

/-- Whitespace class shared by str.split(), str.strip() and the regex
class backslash-s, restricted to the ASCII whitespace characters. -/
def pyIsSpace (c : Char) : Bool :=
  c = ' ' || c = '\t' || c = '\n' || c = '\r' || c = '\x0b' || c = '\x0c'

/-- Sentence-terminal punctuation, the regex class [!?.] used in
preprocess_text and chunk_text. -/
def isTermPunct (c : Char) : Bool :=
  c = '!' || c = '?' || c = '.'

/-- The punctuation class [,.!?;:] used in postprocess_text. -/
def isPostPunct (c : Char) : Bool :=
  c = ',' || c = '.' || c = '!' || c = '?' || c = ';' || c = ':'

/-- The regex class [A-Za-z] used in postprocess_text. -/
def isAsciiLetter (c : Char) : Bool :=
  ('a' ≤ c && c ≤ 'z') || ('A' ≤ c && c ≤ 'Z')

/-- Leading half of str.strip(): remove the leading whitespace run. -/
def lstripWs (l : List Char) : List Char := l.dropWhile pyIsSpace

/-- Trailing half of str.strip(): remove the trailing whitespace run. -/
def rstripWs : List Char → List Char
  | [] => []
  | c :: cs =>
    let r := rstripWs cs
    if r.isEmpty && pyIsSpace c then [] else c :: r

/-- Python str.strip(). -/
def pyStrip (l : List Char) : List Char := rstripWs (lstripWs l)

/-- Head of a character list, or a default character: the one-character
lookahead the scanners below use. -/
def headOr (l : List Char) (d : Char) : Char :=
  match l with
  | [] => d
  | c :: _ => c

/-- Last character of a character list, or a default character. -/
def lastOr (l : List Char) (d : Char) : Char :=
  match l with
  | [] => d
  | [c] => c
  | _ :: c :: cs => lastOr (c :: cs) d

/-- Helper: prepend a character to the first piece of a piece list
(used to build maximal runs right to left). -/
def consFirst (c : Char) : List (List Char) → List (List Char)
  | [] => [[c]]
  | w :: ws => (c :: w) :: ws

/-- Python str.split() with no argument: the maximal runs of
non-whitespace characters, in order; whitespace is discarded and no
empty piece is produced.  A non-whitespace character either opens a new
word (when followed by whitespace or the end) or extends the word that
the following character opens. -/
def splitWs : List Char → List (List Char)
  | [] => []
  | c :: cs =>
    if pyIsSpace c then splitWs cs
    else if pyIsSpace (headOr cs ' ') then [c] :: splitWs cs
    else consFirst c (splitWs cs)

/-- Python str.join with separator ' ' applied to a list of pieces. -/
def joinSpace : List (List Char) → List Char
  | [] => []
  | [w] => w
  | w :: ws => w ++ ' ' :: joinSpace ws

/-- The substitution re.sub(r'([!?.])\x7b2,\x7d', r'\1', text): every
maximal run of two or more sentence-terminal punctuation characters is
replaced by the backreference, which holds the last character of the
run.  Equivalently, a punctuation character is dropped exactly when the
character after it is also punctuation. -/
def collapsePunct : List Char → List Char
  | [] => []
  | c :: cs =>
    if isTermPunct c && isTermPunct (headOr cs ' ')
    then collapsePunct cs
    else c :: collapsePunct cs

/-- Invariant predicate: no two adjacent sentence-terminal punctuation
characters (the fixed points of collapsePunct). -/
def noAdjPunct : List Char → Bool
  | c :: d :: rest => (!(isTermPunct c && isTermPunct d)) && noAdjPunct (d :: rest)
  | _ => true

/-- Function preprocess_text from utils/text_preprocessing.py:
empty input is returned unchanged; otherwise whitespace is normalized
by ' '.join(text.split()), repeated punctuation is collapsed, and the
result is stripped. -/
def preprocess_text (l : List Char) : List Char :=
  if l.isEmpty then l
  else pyStrip (collapsePunct (joinSpace (splitWs l)))

/-- Helper for dropWsBeforePunct: does the input begin with zero or more
whitespace characters and then a punctuation character from [,.!?;:] ? -/
def wsThenPunct : List Char → Bool
  | [] => false
  | c :: cs =>
    if isPostPunct c then true
    else if pyIsSpace c then wsThenPunct cs
    else false

/-- The substitution re.sub(r'\s+([,.!?;:])', r'\1', text): a whitespace
run immediately followed by a punctuation character is deleted (the
punctuation itself is kept by the backreference).  A whitespace
character is deleted exactly when only whitespace stands between it and
a following punctuation character. -/
def dropWsBeforePunct : List Char → List Char
  | [] => []
  | c :: cs =>
    if pyIsSpace c && wsThenPunct cs then dropWsBeforePunct cs
    else c :: dropWsBeforePunct cs

/-- The substitution re.sub(r'([,.!?;:])([A-Za-z])', r'\1 \2', text):
a single space is inserted between a punctuation character and an
immediately following ASCII letter; scanning resumes after the letter. -/
def addSpaceAfterPunct : List Char → List Char
  | [] => []
  | [c] => [c]
  | c :: d :: cs =>
    if isPostPunct c && isAsciiLetter d then c :: ' ' :: d :: addSpaceAfterPunct cs
    else c :: addSpaceAfterPunct (d :: cs)

/-- Uppercase the first character (text[0].upper() + text[1:], which is
the identity on the empty string). -/
def capitalizeFirst : List Char → List Char
  | [] => []
  | c :: cs => c.toUpper :: cs

/-- Function postprocess_text from utils/text_preprocessing.py. -/
def postprocess_text (l : List Char) : List Char :=
  if l.isEmpty then l
  else pyStrip (capitalizeFirst (addSpaceAfterPunct (dropWsBeforePunct l)))

/-- Helper for splitSentences: prepend characters to the first piece of
an alternating split result. -/
def prependPart (pre : List Char) : List (List Char) → List (List Char)
  | [] => [pre]
  | p :: ps => (pre ++ p) :: ps

/-- The call re.split(r'([.!?]+\s+)', text): an alternating list
[part, separator, part, ..., part] where each separator is a maximal
punctuation run followed by a maximal whitespace run, and the parts are
the text between separators (possibly empty).  The list always has odd
length and concatenates back to the input. -/
def splitSentences : List Char → List (List Char)
  | [] => [[]]
  | c :: cs =>
    if isTermPunct c then
      let rest := cs.dropWhile isTermPunct
      if pyIsSpace (headOr rest 'x') then
        [] :: ((c :: cs.takeWhile isTermPunct) ++ rest.takeWhile pyIsSpace) ::
          splitSentences (rest.dropWhile pyIsSpace)
      else prependPart (c :: cs.takeWhile isTermPunct) (splitSentences rest)
    else prependPart [c] (splitSentences cs)
termination_by l => l.length
decreasing_by
  all_goals
    have h : ∀ (p : Char → Bool) (l : List Char), (l.dropWhile p).length ≤ l.length := by
      intro p l
      induction l with
      | nil => simp
      | cons a as ih =>
        rw [List.dropWhile_cons]
        split
        · exact Nat.le_trans ih (Nat.le_succ _)
        · exact Nat.le_refl _
  · have h1 := h isTermPunct cs
    have h2 := h pyIsSpace (cs.dropWhile isTermPunct)
    simp only [List.length_cons]
    omega
  · have h1 := h isTermPunct cs
    simp only [List.length_cons]
    omega
  · simp only [List.length_cons]; omega

/-- The loop for i in range(0, len(sentences), 2): each even-indexed
part is paired with the separator after it (or with nothing for the
last part), giving the full sentences of chunk_text. -/
def pairUp : List (List Char) → List (List Char)
  | [] => []
  | [p] => [p]
  | p :: s :: rest => (p ++ s) :: pairUp rest

/-- The greedy packing loop of chunk_text: cur is current_chunk, each
full sentence is appended while the length bound holds, otherwise the
current chunk is flushed (stripped, and only if non-empty). -/
def chunkLoop (maxLength : Nat) : List Char → List (List Char) → List (List Char)
  | cur, [] => if cur.isEmpty then [] else [pyStrip cur]
  | cur, f :: fs =>
    if cur.length + f.length ≤ maxLength then chunkLoop maxLength (cur ++ f) fs
    else if cur.isEmpty then chunkLoop maxLength f fs
    else pyStrip cur :: chunkLoop maxLength f fs

/-- Function chunk_text from utils/text_preprocessing.py. -/
def chunk_text (text : List Char) (maxLength : Nat) : List (List Char) :=
  if text.length ≤ maxLength then [text]
  else chunkLoop maxLength [] (pairUp (splitSentences text))

/- MD5 (RFC 1321), used by _generate_key through hashlib.md5.  Words are
Nat kept below 2^32 by explicit reduction. -/

/-- Reduction of a word to 32 bits. -/
def w32 (n : Nat) : Nat := n % 4294967296

/-- Bitwise complement on 32-bit words. -/
def not32 (x : Nat) : Nat := 4294967295 - w32 x

/-- Left rotation of a 32-bit word by s bits (0 < s < 32). -/
def rotl32 (x s : Nat) : Nat := w32 (w32 x * 2 ^ s) + w32 x / 2 ^ (32 - s)

/-- Per-round sine-derived constants of MD5. -/
def md5K : List Nat :=
  [0xd76aa478, 0xe8c7b756, 0x242070db, 0xc1bdceee,
   0xf57c0faf, 0x4787c62a, 0xa8304613, 0xfd469501,
   0x698098d8, 0x8b44f7af, 0xffff5bb1, 0x895cd7be,
   0x6b901122, 0xfd987193, 0xa679438e, 0x49b40821,
   0xf61e2562, 0xc040b340, 0x265e5a51, 0xe9b6c7aa,
   0xd62f105d, 0x02441453, 0xd8a1e681, 0xe7d3fbc8,
   0x21e1cde6, 0xc33707d6, 0xf4d50d87, 0x455a14ed,
   0xa9e3e905, 0xfcefa3f8, 0x676f02d9, 0x8d2a4c8a,
   0xfffa3942, 0x8771f681, 0x6d9d6122, 0xfde5380c,
   0xa4beea44, 0x4bdecfa9, 0xf6bb4b60, 0xbebfbc70,
   0x289b7ec6, 0xeaa127fa, 0xd4ef3085, 0x04881d05,
   0xd9d4d039, 0xe6db99e5, 0x1fa27cf8, 0xc4ac5665,
   0xf4292244, 0x432aff97, 0xab9423a7, 0xfc93a039,
   0x655b59c3, 0x8f0ccc92, 0xffeff47d, 0x85845dd1,
   0x6fa87e4f, 0xfe2ce6e0, 0xa3014314, 0x4e0811a1,
   0xf7537e82, 0xbd3af235, 0x2ad7d2bb, 0xeb86d391]

/-- Per-round shift amounts of MD5. -/
def md5S : List Nat :=
  [7, 12, 17, 22, 7, 12, 17, 22, 7, 12, 17, 22, 7, 12, 17, 22,
   5, 9, 14, 20, 5, 9, 14, 20, 5, 9, 14, 20, 5, 9, 14, 20,
   4, 11, 16, 23, 4, 11, 16, 23, 4, 11, 16, 23, 4, 11, 16, 23,
   6, 10, 15, 21, 6, 10, 15, 21, 6, 10, 15, 21, 6, 10, 15, 21]

/-- State of the MD5 compression function. -/
structure MD5St where
  a : Nat
  b : Nat
  c : Nat
  d : Nat
deriving Repr, DecidableEq

/-- One of the 64 rounds of the MD5 compression function on a 16-word
message block M. -/
def md5Round (M : List Nat) (st : MD5St) (i : Nat) : MD5St :=
  let f :=
    if i < 16 then (st.b &&& st.c) ||| (not32 st.b &&& st.d)
    else if i < 32 then (st.d &&& st.b) ||| (not32 st.d &&& st.c)
    else if i < 48 then st.b ^^^ st.c ^^^ st.d
    else st.c ^^^ (st.b ||| not32 st.d)
  let g :=
    if i < 16 then i
    else if i < 32 then (5 * i + 1) % 16
    else if i < 48 then (3 * i + 5) % 16
    else 7 * i % 16
  let tmp := w32 (f + st.a + md5K.getD i 0 + M.getD g 0)
  ⟨st.d, w32 (st.b + rotl32 tmp (md5S.getD i 0)), st.b, st.c⟩

/-- Processing of one 64-byte block: 64 rounds, then the running state
is added in. -/
def md5Block (st : MD5St) (M : List Nat) : MD5St :=
  let r := (List.range 64).foldl (md5Round M) st
  ⟨w32 (st.a + r.a), w32 (st.b + r.b), w32 (st.c + r.c), w32 (st.d + r.d)⟩

/-- MD5 padding: the byte 0x80, zeros up to 56 mod 64, then the original
bit length as 8 little-endian bytes. -/
def md5Pad (msg : List Nat) : List Nat :=
  let zeros := (120 - (msg.length + 1) % 64) % 64
  msg ++ 128 :: List.replicate zeros 0 ++
    (List.range 8).map (fun i => 8 * msg.length / 256 ^ i % 256)

/-- Grouping of a little-endian byte sequence into 32-bit words. -/
def bytesToWords : List Nat → List Nat
  | b0 :: b1 :: b2 :: b3 :: rest =>
    (b0 + 256 * b1 + 65536 * b2 + 16777216 * b3) :: bytesToWords rest
  | _ => []

/-- Grouping of the word sequence into 16-word blocks (a padded message
always splits exactly). -/
def groups16 : List Nat → List (List Nat)
  | a0 :: a1 :: a2 :: a3 :: a4 :: a5 :: a6 :: a7 ::
    a8 :: a9 :: a10 :: a11 :: a12 :: a13 :: a14 :: a15 :: rest =>
    [a0, a1, a2, a3, a4, a5, a6, a7, a8, a9, a10, a11, a12, a13, a14, a15] ::
      groups16 rest
  | [] => []
  | rest => [rest]

/-- Little-endian bytes of a 32-bit word. -/
def wordLEBytes (x : Nat) : List Nat :=
  [x % 256, x / 256 % 256, x / 65536 % 256, x / 16777216 % 256]

/-- The 16-byte MD5 digest of a byte sequence. -/
def md5Digest (msg : List Nat) : List Nat :=
  let final := (groups16 (bytesToWords (md5Pad msg))).foldl md5Block
    ⟨0x67452301, 0xefcdab89, 0x98badcfe, 0x10325476⟩
  wordLEBytes final.a ++ wordLEBytes final.b ++ wordLEBytes final.c ++ wordLEBytes final.d

/-- The sixteen lowercase hexadecimal digits: 0-9 then a-f. -/
def hexDigitChars : List Char :=
  (List.range 10).map (fun n => Char.ofNat (48 + n)) ++
    (List.range 6).map (fun n => Char.ofNat (97 + n))

/-- Lowercase hexadecimal digit of a value below 16. -/
def hexChar (n : Nat) : Char := hexDigitChars.getD n '0'

/-- Two-digit lowercase hexadecimal form of a byte. -/
def byteHex (b : Nat) : List Char := [hexChar (b / 16), hexChar (b % 16)]

/-- hashlib.md5(bytes).hexdigest() as a character list. -/
def md5Hex (msg : List Nat) : List Char := ((md5Digest msg).map byteHex).flatten

/-- UTF-8 encoding of one code point (str.encode for a single character). -/
def utf8Char (c : Char) : List Nat :=
  let n := c.toNat
  if n < 128 then [n]
  else if n < 2048 then [192 + n / 64, 128 + n % 64]
  else if n < 65536 then [224 + n / 4096, 128 + n / 64 % 64, 128 + n % 64]
  else [240 + n / 262144, 128 + n / 4096 % 64, 128 + n / 64 % 64, 128 + n % 64]

/-- text.encode('utf-8') as a byte list. -/
def utf8Encode (s : String) : List Nat := (s.data.map utf8Char).flatten

/-- hashlib.md5(text.encode('utf-8')).hexdigest()[:16] from
TranslationCache._generate_key. -/
def hash16 (text : String) : List Char := (md5Hex (utf8Encode text)).take 16

/-- TranslationCache._generate_key from cache/translation_cache.py:
the f-string trans:source:target:hash. -/
def generate_key (text source_lang target_lang : String) : String :=
  "trans:" ++ source_lang ++ ":" ++ target_lang ++ ":" ++ String.mk (hash16 text)

/- TranslationCache (cache/translation_cache.py).  The Redis client is
modelled by a connected flag (redis_client None or not, decided at
construction), a backend keyspace as an association list with the most
recent write first (SET overwrites), and two flags saying whether the
backend raises on a get or set operation (the except branches).  TTL
expiry is not modelled: no claim mentions the passage of time. -/
structure CacheState where
  connected : Bool
  getRaises : Bool
  setRaises : Bool
  store : List (String × String)
deriving Repr, DecidableEq

/-- TranslationCache.get: None when disconnected, on a backend error, on
a miss, and - through the truthiness test on cached_value - when the
stored value is the empty string. -/
def cacheGet (c : CacheState) (text source_lang target_lang : String) : Option String :=
  if !c.connected then none
  else if c.getRaises then none
  else match c.store.lookup (generate_key text source_lang target_lang) with
    | some v => if v ≠ "" then some v else none
    | none => none

/-- TranslationCache.set: False when disconnected or on a backend error,
otherwise the value is written under the derived key and True returned. -/
def cacheSet (c : CacheState) (text source_lang target_lang translation : String) :
    CacheState × Bool :=
  if !c.connected then (c, false)
  else if c.setRaises then (c, false)
  else ({ c with
          store := (generate_key text source_lang target_lang, translation) :: c.store },
        true)

/- MarianTranslator (models/marian_translator.py).  The neural engine is
opaque: its inference behaviour is a parameter infer (an Except models a
raised exception), and loadOk says whether from_pretrained succeeds for
a pair.  loaded is the set of keys of self.models. -/
structure EngineCtx where
  loaded : List (String × String)
  loadOk : String → String → Bool
  infer : String → String → String → Except String String

/-- MarianTranslator._get_model_name: the fixed model_map table. -/
def get_model_name (source_lang target_lang : String) : Option String :=
  List.lookup (source_lang, target_lang)
    [(("en", "hi"), "Helsinki-NLP/opus-mt-en-hi"),
     (("hi", "en"), "Helsinki-NLP/opus-mt-hi-en")]

/-- Result of one MarianTranslator.translate call: the translation or the
raised error, the updated translator state, and how many inference
invocations ran. -/
structure EngineOut where
  result : Except String String
  engine : EngineCtx
  inferCalls : Nat

/-- MarianTranslator.translate: load the model on first use for the pair
(_load_model raises ValueError for a pair outside model_map and
re-raises loading failures; the dictionaries are updated only on
success), then run inference. -/
def engineTranslate (e : EngineCtx) (text source_lang target_lang : String) : EngineOut :=
  if (source_lang, target_lang) ∈ e.loaded then
    ⟨e.infer text source_lang target_lang, e, 1⟩
  else match get_model_name source_lang target_lang with
    | none => ⟨Except.error "Unsupported language pair", e, 0⟩
    | some _ =>
      if e.loadOk source_lang target_lang then
        let e2 := { e with loaded := (source_lang, target_lang) :: e.loaded }
        ⟨e2.infer text source_lang target_lang, e2, 1⟩
      else ⟨Except.error "Model load failed", e, 0⟩

/-- The JSON error and success bodies produced by the translate route of
app.py (latency and HTTP codes aside). -/
inductive TResponse where
  | missingFields
  | tooLong (maxLength : Nat)
  | unsupportedPair (source_lang target_lang : String)
  | hit (translated_text : String)
  | fresh (translated_text : String) (model : Option String)
  | engineError (details : String)
deriving Repr, DecidableEq

/-- A parsed request body with its three fields; an absent field and an
empty field are both falsy in the validation of app.py. -/
structure Request where
  text : String
  source_lang : String
  target_lang : String
deriving Repr, DecidableEq

/-- SUPPORTED_PAIRS from app.py. -/
def SUPPORTED_PAIRS : List (String × String) := [("en", "hi"), ("hi", "en")]

/-- Everything one call of the translate route produces: the response,
the cache and translator states after the call, and how many engine
inference invocations, cache reads and cache writes it performed. -/
structure Outcome where
  response : TResponse
  cache : CacheState
  engine : EngineCtx
  engineCalls : Nat
  cacheGets : Nat
  cacheSets : Nat

/-- String form of preprocess_text. -/
def preprocessStr (s : String) : String := String.mk (preprocess_text s.data)

/-- String form of postprocess_text. -/
def postprocessStr (s : String) : String := String.mk (postprocess_text s.data)

/-- The translate route of app.py: validation (missing fields, length
bound from MAX_LENGTH, supported pairs), then cache lookup, then
preprocess - engine - postprocess - cache store; an engine exception is
answered with the 500 error branch and nothing is cached. -/
def translate (maxLength : Nat) (c : CacheState) (e : EngineCtx) (req : Request) : Outcome :=
  if req.text = "" ∨ req.source_lang = "" ∨ req.target_lang = "" then
    ⟨TResponse.missingFields, c, e, 0, 0, 0⟩
  else if maxLength < req.text.length then
    ⟨TResponse.tooLong maxLength, c, e, 0, 0, 0⟩
  else if (req.source_lang, req.target_lang) ∉ SUPPORTED_PAIRS then
    ⟨TResponse.unsupportedPair req.source_lang req.target_lang, c, e, 0, 0, 0⟩
  else
    match cacheGet c req.text req.source_lang req.target_lang with
    | some v => ⟨TResponse.hit v, c, e, 0, 1, 0⟩
    | none =>
      let eo := engineTranslate e (preprocessStr req.text) req.source_lang req.target_lang
      match eo.result with
      | Except.error msg => ⟨TResponse.engineError msg, c, eo.engine, eo.inferCalls, 1, 0⟩
      | Except.ok tr =>
        let final := postprocessStr tr
        ⟨TResponse.fresh final (get_model_name req.source_lang req.target_lang),
         (cacheSet c req.text req.source_lang req.target_lang final).1,
         eo.engine, eo.inferCalls, 1, 1⟩

/- Interleaving model of the unsynchronized model-loading path, for the
single-flight claim.  The statements executed by one request thread on
the shared translator state are: the membership test in translate, the
membership test at the top of _load_model, the load itself (the
from_pretrained calls), and the dictionary insertion.  There is no lock
in the code, so any interleaving of the steps of two threads is a
possible execution. -/
inductive LoadPC where
  | check1
  | check2
  | doLoad
  | insertModel
  | done
deriving Repr, DecidableEq

/-- Shared translator state: the keys of self.models, and how many times
the load routine has executed. -/
structure RegSt where
  loaded : List (String × String)
  loads : Nat
deriving Repr, DecidableEq

/-- One atomic statement of the load path of one thread. -/
def stepLoad (pair : String × String) : RegSt × LoadPC → RegSt × LoadPC
  | (r, LoadPC.check1) => (r, if pair ∈ r.loaded then LoadPC.done else LoadPC.check2)
  | (r, LoadPC.check2) => (r, if pair ∈ r.loaded then LoadPC.done else LoadPC.doLoad)
  | (r, LoadPC.doLoad) => ({ r with loads := r.loads + 1 }, LoadPC.insertModel)
  | (r, LoadPC.insertModel) => ({ r with loaded := pair :: r.loaded }, LoadPC.done)
  | (r, LoadPC.done) => (r, LoadPC.done)

/-- Two request threads for the same pair over the shared state. -/
structure TwoThreads where
  reg : RegSt
  pcA : LoadPC
  pcB : LoadPC
deriving Repr, DecidableEq

/-- One scheduler step: false runs thread A, true runs thread B. -/
def stepSys (pair : String × String) (s : TwoThreads) (tid : Bool) : TwoThreads :=
  if tid then
    let r := stepLoad pair (s.reg, s.pcB)
    { s with reg := r.1, pcB := r.2 }
  else
    let r := stepLoad pair (s.reg, s.pcA)
    { s with reg := r.1, pcA := r.2 }

/-- Running a schedule (a list of thread choices). -/
def runSched (pair : String × String) (s : TwoThreads) : List Bool → TwoThreads
  | [] => s
  | t :: ts => runSched pair (stepSys pair s t) ts

/-- Iterating single-thread steps. -/
def stepLoadN (pair : String × String) (x : RegSt × LoadPC) : Nat → RegSt × LoadPC
  | 0 => x
  | n + 1 => stepLoadN pair (stepLoad pair x) n

/-- One sequential (uninterleaved) run of the load path to completion:
four statements always reach the done state. -/
def runLoadCall (pair : String × String) (r : RegSt) : RegSt :=
  (stepLoadN pair (r, LoadPC.check1) 4).1

/- Definitions written from the words of the specification (section 4.1,
Normalize), for the refinement claim C8.  They are deliberately phrased
as the specification phrases them, not as the code computes them. -/

/-- Spec wording: collapse any run of whitespace characters to a single
space.  Each maximal whitespace run becomes one ' '. -/
def specCollapseWs : List Char → List Char
  | [] => []
  | c :: cs =>
    if pyIsSpace c then
      if pyIsSpace (headOr cs 'x') then specCollapseWs cs
      else ' ' :: specCollapseWs cs
    else c :: specCollapseWs cs

/-- Spec wording: collapse any run of 2+ repeated terminal punctuation
characters (from the set bang, question mark, dot) to a single instance;
the instance kept is the final character of the run, which is what the
backreference of the code yields. -/
def specCollapsePunct : List Char → List Char
  | [] => []
  | c :: cs =>
    if isTermPunct c then
      (if 2 ≤ (c :: cs.takeWhile isTermPunct).length
       then [lastOr (c :: cs.takeWhile isTermPunct) ' ']
       else c :: cs.takeWhile isTermPunct) ++
      specCollapsePunct (cs.dropWhile isTermPunct)
    else c :: specCollapsePunct cs
termination_by l => l.length
decreasing_by
  all_goals
    have h : ∀ (l : List Char), (l.dropWhile isTermPunct).length ≤ l.length := by
      intro l
      induction l with
      | nil => simp
      | cons a as ih =>
        rw [List.dropWhile_cons]
        split
        · exact Nat.le_trans ih (Nat.le_succ _)
        · exact Nat.le_refl _
  · have h1 := h cs
    simp only [List.length_cons]
    omega
  · simp only [List.length_cons]; omega

/-- Normalize as the specification words it: whitespace runs to single
spaces, repeated punctuation collapsed, ends trimmed; empty input
returned unchanged. -/
def specNormalize (l : List Char) : List Char :=
  if l.isEmpty then l
  else pyStrip (specCollapsePunct (specCollapseWs l))

/- Concrete fixtures used by witness and counterexample theorems. -/

/-- Witness fixture: a healthy, empty cache. -/
def wCache : CacheState := ⟨true, false, false, []⟩

/-- Witness fixture: a disconnected cache (Redis connection failed at
construction). -/
def wCacheDown : CacheState := ⟨false, false, false, []⟩

/-- Witness fixture: a connected cache whose backend raises on every
get and set operation. -/
def wCacheRaising : CacheState := ⟨true, true, true, []⟩

/-- Witness fixture: an engine with the en-hi model loaded that
translates everything to a fixed non-empty string. -/
def wEngine : EngineCtx :=
  ⟨[("en", "hi")], fun _ _ => true, fun _ _ _ => Except.ok "namaste duniya"⟩

/-- Witness fixture: an engine whose inference raises. -/
def wEngineFailing : EngineCtx :=
  ⟨[("en", "hi")], fun _ _ => true, fun _ _ _ => Except.error "CUDA out of memory"⟩

/-- Witness fixture: an engine whose inference returns a whitespace-only
string, whose postprocessed form is empty. -/
def wEngineBlank : EngineCtx :=
  ⟨[("en", "hi")], fun _ _ => true, fun _ _ _ => Except.ok " "⟩

/-- Witness fixture: a small valid request. -/
def wReq : Request := ⟨"hi there", "en", "hi"⟩

/-- Witness fixture: a 600-character text (scenario C). -/
def wReqLong : Request := ⟨String.mk (List.replicate 600 'a'), "en", "hi"⟩

/-- First call of the C1 counterexample run. -/
def c1o1 : Outcome := translate 512 wCache wEngineBlank wReq

/-- Second, identical call of the C1 counterexample run. -/
def c1o2 : Outcome := translate 512 c1o1.cache c1o1.engine wReq

/-- The C9 counterexample pair. -/
def cxPair : String × String := ("en", "hi")

/-- The C9 counterexample schedule: both threads pass both membership
tests before either registers its model, so both execute the load. -/
def cxSched : List Bool := [false, true, false, true, false, false, true, true]

/- Helper lemmas. -/

theorem headOr_nil (d : Char) : headOr [] d = d := rfl

theorem headOr_cons (c : Char) (cs : List Char) (d : Char) : headOr (c :: cs) d = c := rfl

theorem length_md5Digest (msg : List Nat) : (md5Digest msg).length = 16 := by
  simp [md5Digest, wordLEBytes]

theorem length_md5Hex (msg : List Nat) : (md5Hex msg).length = 32 := by
  have h : ∀ (L : List Nat), ((L.map byteHex).flatten).length = 2 * L.length := by
    intro L
    induction L with
    | nil => simp
    | cons b bs ih =>
      simp only [List.map_cons, List.flatten_cons, List.length_append, ih, byteHex,
        List.length_cons, List.length_nil]
      omega
  rw [md5Hex, h, length_md5Digest]

theorem mem_wordLEBytes_lt (x : Nat) : ∀ b ∈ wordLEBytes x, b < 256 := by
  intro b hb
  simp only [wordLEBytes, List.mem_cons, List.not_mem_nil, or_false] at hb
  rcases hb with h | h | h | h <;> subst h <;> exact Nat.mod_lt _ (by norm_num)

theorem mem_md5Digest_lt (msg : List Nat) : ∀ b ∈ md5Digest msg, b < 256 := by
  intro b hb
  simp only [md5Digest, List.mem_append] at hb
  rcases hb with ((hb | hb) | hb) | hb <;> exact mem_wordLEBytes_lt _ _ hb

theorem hexChar_mem (n : Nat) (h : n < 16) : hexChar n ∈ hexDigitChars := by
  interval_cases n <;> decide

theorem mem_md5Hex_hex (msg : List Nat) : ∀ c ∈ md5Hex msg, c ∈ hexDigitChars := by
  intro c hc
  rw [md5Hex, List.mem_flatten] at hc
  obtain ⟨l, hl, hcl⟩ := hc
  rw [List.mem_map] at hl
  obtain ⟨b, hb, rfl⟩ := hl
  have hblt : b < 256 := mem_md5Digest_lt msg b hb
  simp only [byteHex, List.mem_cons, List.not_mem_nil, or_false] at hcl
  rcases hcl with h | h <;> subst h
  · exact hexChar_mem _ (by omega)
  · exact hexChar_mem _ (Nat.mod_lt _ (by norm_num))

theorem hash16_length (text : String) : (hash16 text).length = 16 := by
  rw [hash16, List.length_take, length_md5Hex]
  decide

theorem hash16_hex (text : String) :
    (hash16 text).all (fun c => hexDigitChars.contains c) = true := by
  rw [List.all_eq_true]
  intro c hc
  have hmem : c ∈ md5Hex (utf8Encode text) := List.mem_of_mem_take hc
  exact List.elem_iff.mpr (mem_md5Hex_hex _ c hmem)

/- Path lemmas for the translate route. -/

theorem translate_hit (maxLength : Nat) (c : CacheState) (e : EngineCtx) (req : Request)
    (v : String)
    (h1 : ¬(req.text = "" ∨ req.source_lang = "" ∨ req.target_lang = ""))
    (h4 : req.text.length ≤ maxLength)
    (h5 : (req.source_lang, req.target_lang) ∈ SUPPORTED_PAIRS)
    (h6 : cacheGet c req.text req.source_lang req.target_lang = some v) :
    translate maxLength c e req = ⟨TResponse.hit v, c, e, 0, 1, 0⟩ := by
  rw [translate, if_neg h1, if_neg (by omega), if_neg (not_not_intro h5), h6]

theorem translate_miss_error (maxLength : Nat) (c : CacheState) (e : EngineCtx)
    (req : Request) (msg : String)
    (h1 : ¬(req.text = "" ∨ req.source_lang = "" ∨ req.target_lang = ""))
    (h4 : req.text.length ≤ maxLength)
    (h5 : (req.source_lang, req.target_lang) ∈ SUPPORTED_PAIRS)
    (h6 : cacheGet c req.text req.source_lang req.target_lang = none)
    (h7 : (engineTranslate e (preprocessStr req.text) req.source_lang req.target_lang).result
            = Except.error msg) :
    translate maxLength c e req =
      ⟨TResponse.engineError msg, c,
       (engineTranslate e (preprocessStr req.text) req.source_lang req.target_lang).engine,
       (engineTranslate e (preprocessStr req.text) req.source_lang req.target_lang).inferCalls,
       1, 0⟩ := by
  rw [translate, if_neg h1, if_neg (by omega), if_neg (not_not_intro h5), h6]
  simp only [h7]

theorem translate_miss_ok (maxLength : Nat) (c : CacheState) (e : EngineCtx)
    (req : Request) (tr : String)
    (h1 : ¬(req.text = "" ∨ req.source_lang = "" ∨ req.target_lang = ""))
    (h4 : req.text.length ≤ maxLength)
    (h5 : (req.source_lang, req.target_lang) ∈ SUPPORTED_PAIRS)
    (h6 : cacheGet c req.text req.source_lang req.target_lang = none)
    (h7 : (engineTranslate e (preprocessStr req.text) req.source_lang req.target_lang).result
            = Except.ok tr) :
    translate maxLength c e req =
      ⟨TResponse.fresh (postprocessStr tr) (get_model_name req.source_lang req.target_lang),
       (cacheSet c req.text req.source_lang req.target_lang (postprocessStr tr)).1,
       (engineTranslate e (preprocessStr req.text) req.source_lang req.target_lang).engine,
       (engineTranslate e (preprocessStr req.text) req.source_lang req.target_lang).inferCalls,
       1, 1⟩ := by
  rw [translate, if_neg h1, if_neg (by omega), if_neg (not_not_intro h5), h6]
  simp only [h7]

/- Claim theorems. -/

/-- Claim C3: DeriveKey is a pure deterministic function returning
exactly trans:source:target:h where h is a 16-character hexadecimal
digest of the UTF-8 bytes of the text (the truncated MD5 hexdigest);
determinism holds because generate_key is a function of its three
arguments and of nothing else. -/
theorem C3_derive_key (text source_lang target_lang : String) :
    generate_key text source_lang target_lang =
      "trans:" ++ source_lang ++ ":" ++ target_lang ++ ":" ++ String.mk (hash16 text)
    ∧ hash16 text = (md5Hex (utf8Encode text)).take 16
    ∧ (hash16 text).length = 16
    ∧ (hash16 text).all (fun c => hexDigitChars.contains c) = true :=
  ⟨rfl, rfl, hash16_length text, hash16_hex text⟩

/-- Claim C5: a request with empty text (or an empty language field),
with text longer than the configured maximum, or with an unsupported
language pair is answered with the corresponding error immediately:
no cache read or write happens, no engine call happens, and the cache
and translator states are returned unchanged. -/
theorem C5_validation_before_side_effects (maxLength : Nat) (c : CacheState)
    (e : EngineCtx) (req : Request) :
    (req.text = "" →
       translate maxLength c e req = ⟨TResponse.missingFields, c, e, 0, 0, 0⟩)
  ∧ (req.text ≠ "" → req.source_lang ≠ "" → req.target_lang ≠ "" →
       maxLength < req.text.length →
       translate maxLength c e req = ⟨TResponse.tooLong maxLength, c, e, 0, 0, 0⟩)
  ∧ (req.text ≠ "" → req.source_lang ≠ "" → req.target_lang ≠ "" →
       req.text.length ≤ maxLength →
       (req.source_lang, req.target_lang) ∉ SUPPORTED_PAIRS →
       translate maxLength c e req =
         ⟨TResponse.unsupportedPair req.source_lang req.target_lang, c, e, 0, 0, 0⟩) := by
  refine ⟨?_, ?_, ?_⟩
  · intro h
    rw [translate, if_pos (Or.inl h)]
  · intro h1 h2 h3 h4
    rw [translate, if_neg (by simp [h1, h2, h3]), if_pos h4]
  · intro h1 h2 h3 h4 h5
    rw [translate, if_neg (by simp [h1, h2, h3]), if_neg (by omega), if_pos h5]

set_option maxRecDepth 8000 in
/-- Claim C5 witness: scenario C, a 600-character text against the
default maximum 512 is rejected with the length error and no side
effects. -/
theorem C5_witness :
    translate 512 wCache wEngine wReqLong = ⟨TResponse.tooLong 512, wCache, wEngine, 0, 0, 0⟩ :=
  (C5_validation_before_side_effects 512 wCache wEngine wReqLong).2.1
    (by decide) (by decide) (by decide) (by decide)

/-- Claim C6: on a validated request that misses the cache, if the
engine (its model load or its inference) raises, the route answers with
the engine error branch and the cache is exactly what it was before the
request: nothing is written. -/
theorem C6_engine_failure_atomic (maxLength : Nat) (c : CacheState) (e : EngineCtx)
    (req : Request) (msg : String)
    (h1 : req.text ≠ "") (h2 : req.source_lang ≠ "") (h3 : req.target_lang ≠ "")
    (h4 : req.text.length ≤ maxLength)
    (h5 : (req.source_lang, req.target_lang) ∈ SUPPORTED_PAIRS)
    (h6 : cacheGet c req.text req.source_lang req.target_lang = none)
    (h7 : (engineTranslate e (preprocessStr req.text) req.source_lang req.target_lang).result
            = Except.error msg) :
    (translate maxLength c e req).response = TResponse.engineError msg
  ∧ (translate maxLength c e req).cache = c
  ∧ (translate maxLength c e req).cacheSets = 0 := by
  rw [translate_miss_error maxLength c e req msg (by simp [h1, h2, h3]) h4 h5 h6 h7]
  exact ⟨rfl, rfl, rfl⟩

/-- Claim C6 witness: a concrete failing engine against an empty healthy
cache; the outcome is the engine error and the cache is unchanged. -/
theorem C6_witness :
    (translate 512 wCache wEngineFailing wReq).response =
      TResponse.engineError "CUDA out of memory"
  ∧ (translate 512 wCache wEngineFailing wReq).cache = wCache
  ∧ (translate 512 wCache wEngineFailing wReq).cacheSets = 0 :=
  C6_engine_failure_atomic 512 wCache wEngineFailing wReq "CUDA out of memory"
    (by decide) (by decide) (by decide) (by decide) (by decide) (by rfl) (by rfl)

/-- Claim C2: with the cache degraded - the connection failed at
construction, or the backend raises on every operation - every get
returns absent, every set reports failure, and a validated request
still succeeds through the engine with no cache-related error and an
unchanged cache. -/
theorem C2_degrade_to_disabled (maxLength : Nat) (c : CacheState) (e : EngineCtx)
    (req : Request) (y : String)
    (hdown : c.connected = false ∨ (c.getRaises = true ∧ c.setRaises = true))
    (h1 : req.text ≠ "") (h2 : req.source_lang ≠ "") (h3 : req.target_lang ≠ "")
    (h4 : req.text.length ≤ maxLength)
    (h5 : (req.source_lang, req.target_lang) ∈ SUPPORTED_PAIRS)
    (h7 : (engineTranslate e (preprocessStr req.text) req.source_lang req.target_lang).result
            = Except.ok y) :
    (∀ text sl tl, cacheGet c text sl tl = none)
  ∧ (∀ text sl tl v, cacheSet c text sl tl v = (c, false))
  ∧ (translate maxLength c e req).response =
      TResponse.fresh (postprocessStr y) (get_model_name req.source_lang req.target_lang)
  ∧ (translate maxLength c e req).cache = c := by
  have hget : ∀ text sl tl, cacheGet c text sl tl = none := by
    intro text sl tl
    rcases hdown with h | ⟨hg, _⟩
    · rw [cacheGet, if_pos (by rw [h]; rfl)]
    · by_cases hc : c.connected
      · rw [cacheGet, if_neg (by rw [hc]; simp), if_pos hg]
      · rw [cacheGet, if_pos (by simp [hc])]
  have hset : ∀ text sl tl v, cacheSet c text sl tl v = (c, false) := by
    intro text sl tl v
    rcases hdown with h | ⟨_, hs⟩
    · rw [cacheSet, if_pos (by rw [h]; rfl)]
    · by_cases hc : c.connected
      · rw [cacheSet, if_neg (by rw [hc]; simp), if_pos hs]
      · rw [cacheSet, if_pos (by simp [hc])]
  have hm := translate_miss_ok maxLength c e req y (by simp [h1, h2, h3]) h4 h5
    (hget _ _ _) h7
  rw [hm]
  exact ⟨hget, hset, rfl, by rw [hset]⟩

/-- Claim C2 witness: the disconnected cache fixture with a healthy
engine; the request succeeds fresh and the cache stays empty. -/
theorem C2_witness :
    cacheGet wCacheDown "hi there" "en" "hi" = none
  ∧ cacheSet wCacheDown "hi there" "en" "hi" "x" = (wCacheDown, false)
  ∧ (translate 512 wCacheDown wEngine wReq).response =
      TResponse.fresh (postprocessStr "namaste duniya") (get_model_name "en" "hi")
  ∧ (translate 512 wCacheDown wEngine wReq).cache = wCacheDown :=
  ⟨(C2_degrade_to_disabled 512 wCacheDown wEngine wReq "namaste duniya" (Or.inl rfl)
      (by decide) (by decide) (by decide) (by decide) (by decide) (by rfl)).1 _ _ _,
   (C2_degrade_to_disabled 512 wCacheDown wEngine wReq "namaste duniya" (Or.inl rfl)
      (by decide) (by decide) (by decide) (by decide) (by decide) (by rfl)).2.1 _ _ _ _,
   (C2_degrade_to_disabled 512 wCacheDown wEngine wReq "namaste duniya" (Or.inl rfl)
      (by decide) (by decide) (by decide) (by decide) (by decide) (by rfl)).2.2.1,
   (C2_degrade_to_disabled 512 wCacheDown wEngine wReq "namaste duniya" (Or.inl rfl)
      (by decide) (by decide) (by decide) (by decide) (by decide) (by rfl)).2.2.2⟩

theorem cacheSet_connected (c : CacheState) (text sl tl v : String)
    (hconn : c.connected = true) (hsr : c.setRaises = false) :
    cacheSet c text sl tl v =
      ({ c with store := (generate_key text sl tl, v) :: c.store }, true) := by
  rw [cacheSet, if_neg (by simp [hconn]), if_neg (by simp [hsr])]

theorem cacheGet_stored (c : CacheState) (text sl tl v : String)
    (hconn : c.connected = true) (hgr : c.getRaises = false)
    (hlookup : c.store.lookup (generate_key text sl tl) = some v)
    (hv : v ≠ "") :
    cacheGet c text sl tl = some v := by
  rw [cacheGet, if_neg (by simp [hconn]), if_neg (by simp [hgr]), hlookup]
  exact if_pos hv

set_option maxRecDepth 200000 in
/-- Claim C1 counterexample: the claim as stated fails when the stored
translation is the empty string.  With an empty healthy cache and an
engine answering a whitespace-only string (postprocessed to ""), the
first call succeeds, stores "" under the derived key, and the identical
second call is again a cache miss: it answers cached=false and invokes
the engine once more, contradicting the claimed fromCache=true with no
engine call. -/
theorem C1_counterexample :
    c1o1.response = TResponse.fresh "" (some "Helsinki-NLP/opus-mt-en-hi")
  ∧ c1o1.cacheSets = 1
  ∧ c1o1.cache.store.lookup (generate_key "hi there" "en" "hi") = some ""
  ∧ c1o2.response = TResponse.fresh "" (some "Helsinki-NLP/opus-mt-en-hi")
  ∧ c1o2.engineCalls = 1
  ∧ c1o2.cacheGets = 1 := by
  decide

/-- Claim C1, amended: on a validated request that misses the cache,
with a healthy cache backend, when the engine succeeds and the stored
(postprocessed) translation is non-empty, the identical second call is
answered from the cache with the same text, performs no engine call,
and leaves the cache unchanged.  (The non-emptiness condition is what
the counterexample forces: an empty stored translation is never served
back, see claim C10.) -/
theorem C1_idempotent_caching_amended (maxLength : Nat) (c : CacheState) (e : EngineCtx)
    (req : Request) (y : String)
    (hconn : c.connected = true) (hgr : c.getRaises = false) (hsr : c.setRaises = false)
    (h1 : req.text ≠ "") (h2 : req.source_lang ≠ "") (h3 : req.target_lang ≠ "")
    (h4 : req.text.length ≤ maxLength)
    (h5 : (req.source_lang, req.target_lang) ∈ SUPPORTED_PAIRS)
    (h6 : cacheGet c req.text req.source_lang req.target_lang = none)
    (h7 : (engineTranslate e (preprocessStr req.text) req.source_lang req.target_lang).result
            = Except.ok y)
    (hne : postprocessStr y ≠ "") :
    (translate maxLength c e req).response =
      TResponse.fresh (postprocessStr y) (get_model_name req.source_lang req.target_lang)
  ∧ (translate maxLength c e req).cacheSets = 1
  ∧ (translate maxLength (translate maxLength c e req).cache
       (translate maxLength c e req).engine req).response =
      TResponse.hit (postprocessStr y)
  ∧ (translate maxLength (translate maxLength c e req).cache
       (translate maxLength c e req).engine req).engineCalls = 0
  ∧ (translate maxLength (translate maxLength c e req).cache
       (translate maxLength c e req).engine req).cache =
      (translate maxLength c e req).cache := by
  have hm := translate_miss_ok maxLength c e req y (by simp [h1, h2, h3]) h4 h5 h6 h7
  have hset := cacheSet_connected c req.text req.source_lang req.target_lang
    (postprocessStr y) hconn hsr
  have hget2 : cacheGet (cacheSet c req.text req.source_lang req.target_lang
      (postprocessStr y)).1 req.text req.source_lang req.target_lang =
      some (postprocessStr y) := by
    rw [hset]
    refine cacheGet_stored _ _ _ _ _ hconn hgr ?_ hne
    simp [List.lookup]
  have hhit := translate_hit maxLength
    (cacheSet c req.text req.source_lang req.target_lang (postprocessStr y)).1
    (engineTranslate e (preprocessStr req.text) req.source_lang req.target_lang).engine
    req (postprocessStr y) (by simp [h1, h2, h3]) h4 h5 hget2
  rw [hm]
  exact ⟨rfl, rfl, by rw [hhit], by rw [hhit], by rw [hhit]⟩

/-- Claim C1 witness for the amended theorem: a healthy cache, an
engine answering a non-empty string; the second identical call is a
cache hit with the same text and no engine call. -/
theorem C1_witness :
    (translate 512 wCache wEngine wReq).response =
      TResponse.fresh (postprocessStr "namaste duniya") (get_model_name "en" "hi")
  ∧ (translate 512 wCache wEngine wReq).cacheSets = 1
  ∧ (translate 512 (translate 512 wCache wEngine wReq).cache
       (translate 512 wCache wEngine wReq).engine wReq).response =
      TResponse.hit (postprocessStr "namaste duniya")
  ∧ (translate 512 (translate 512 wCache wEngine wReq).cache
       (translate 512 wCache wEngine wReq).engine wReq).engineCalls = 0
  ∧ (translate 512 (translate 512 wCache wEngine wReq).cache
       (translate 512 wCache wEngine wReq).engine wReq).cache =
      (translate 512 wCache wEngine wReq).cache :=
  C1_idempotent_caching_amended 512 wCache wEngine wReq "namaste duniya"
    (by rfl) (by rfl) (by rfl) (by decide) (by decide) (by decide) (by decide)
    (by decide) (by rfl) (by rfl) (by decide)

/-- Claim C10: a cached empty string is treated as a cache miss.  The
get returns absent on a stored empty value; a validated request against
such a store goes to the engine (one inference call) and answers
cached=false; and when the new translation postprocesses to the empty
string it is again stored under the key, so the response to a repeat of
the request never comes from the cache. -/
theorem C10_empty_cached_value_is_miss (maxLength : Nat) (c : CacheState) (e : EngineCtx)
    (req : Request) (y : String)
    (hconn : c.connected = true) (hgr : c.getRaises = false) (hsr : c.setRaises = false)
    (h1 : req.text ≠ "") (h2 : req.source_lang ≠ "") (h3 : req.target_lang ≠ "")
    (h4 : req.text.length ≤ maxLength)
    (h5 : (req.source_lang, req.target_lang) ∈ SUPPORTED_PAIRS)
    (hstored : c.store.lookup (generate_key req.text req.source_lang req.target_lang)
                 = some "")
    (h7 : (engineTranslate e (preprocessStr req.text) req.source_lang req.target_lang).result
            = Except.ok y) :
    cacheGet c req.text req.source_lang req.target_lang = none
  ∧ (translate maxLength c e req).response =
      TResponse.fresh (postprocessStr y) (get_model_name req.source_lang req.target_lang)
  ∧ (∀ v, (translate maxLength c e req).response ≠ TResponse.hit v)
  ∧ (postprocessStr y = "" →
       (translate maxLength c e req).cache.store.lookup
         (generate_key req.text req.source_lang req.target_lang) = some "") := by
  have hget : cacheGet c req.text req.source_lang req.target_lang = none := by
    rw [cacheGet, if_neg (by simp [hconn]), if_neg (by simp [hgr]), hstored]
    exact if_neg (by simp)
  have hm := translate_miss_ok maxLength c e req y (by simp [h1, h2, h3]) h4 h5 hget h7
  rw [hm]
  refine ⟨hget, rfl, by intro v h; exact TResponse.noConfusion h, ?_⟩
  intro hempty
  rw [cacheSet_connected c req.text req.source_lang req.target_lang
    (postprocessStr y) hconn hsr]
  simp [List.lookup, hempty]

/-- Claim C10 witness: a store already holding the empty string under
the derived key; the repeat request is a fresh translation and the key
still maps to the empty string afterwards. -/
theorem C10_witness :
    cacheGet ⟨true, false, false, [(generate_key "hi there" "en" "hi", "")]⟩
      "hi there" "en" "hi" = none
  ∧ (translate 512 ⟨true, false, false, [(generate_key "hi there" "en" "hi", "")]⟩
       wEngineBlank wReq).response =
      TResponse.fresh (postprocessStr " ") (get_model_name "en" "hi")
  ∧ (translate 512 ⟨true, false, false, [(generate_key "hi there" "en" "hi", "")]⟩
       wEngineBlank wReq).cache.store.lookup (generate_key "hi there" "en" "hi") =
      some "" :=
  ⟨(C10_empty_cached_value_is_miss 512 _ wEngineBlank wReq " " (by rfl) (by rfl) (by rfl)
      (by decide) (by decide) (by decide) (by decide) (by decide) (by simp [wReq, List.lookup])
      (by rfl)).1,
   (C10_empty_cached_value_is_miss 512 _ wEngineBlank wReq " " (by rfl) (by rfl) (by rfl)
      (by decide) (by decide) (by decide) (by decide) (by decide) (by simp [wReq, List.lookup])
      (by rfl)).2.1,
   (C10_empty_cached_value_is_miss 512 _ wEngineBlank wReq " " (by rfl) (by rfl) (by rfl)
      (by decide) (by decide) (by decide) (by decide) (by decide) (by simp [wReq, List.lookup])
      (by rfl)).2.2.2 (by decide)⟩

/-- Claim C9 counterexample: the load path holds no lock, so two
concurrent first requests for the same unseen pair can interleave so
that both membership tests of both threads run before either thread
registers its model; both threads then execute the load routine, and
the schedule completes with two loads, contradicting the
exactly-once claim for N = 2 concurrent requests. -/
theorem C9_counterexample :
    (runSched cxPair ⟨⟨[], 0⟩, LoadPC.check1, LoadPC.check1⟩ cxSched).reg.loads = 2
  ∧ (runSched cxPair ⟨⟨[], 0⟩, LoadPC.check1, LoadPC.check1⟩ cxSched).pcA = LoadPC.done
  ∧ (runSched cxPair ⟨⟨[], 0⟩, LoadPC.check1, LoadPC.check1⟩ cxSched).pcB = LoadPC.done := by
  decide

theorem runLoadCall_eq (pair : String × String) (r : RegSt) :
    runLoadCall pair r =
      if pair ∈ r.loaded then r else ⟨pair :: r.loaded, r.loads + 1⟩ := by
  by_cases h : pair ∈ r.loaded
  · rw [if_pos h]
    simp [runLoadCall, stepLoadN, stepLoad, h]
  · rw [if_neg h]
    simp [runLoadCall, stepLoadN, stepLoad, h]

/-- Claim C9, amended: the registry performs an unsynchronized
check-then-load, so under concurrent first requests the load routine
may run once per request (see the counterexample); what the code does
guarantee is sequential single-loading: a completed load call leaves
the pair registered, a call for an already-registered pair changes
nothing, an immediate repeat performs no further load, one call
performs at most one load, and a call for one pair does not affect
whether any other pair is registered. -/
theorem C9_single_flight_amended (pair : String × String) (r : RegSt) :
    (pair ∈ r.loaded → runLoadCall pair r = r)
  ∧ pair ∈ (runLoadCall pair r).loaded
  ∧ (runLoadCall pair (runLoadCall pair r)).loads = (runLoadCall pair r).loads
  ∧ (runLoadCall pair r).loads ≤ r.loads + 1
  ∧ ∀ q, q ≠ pair → ((q ∈ (runLoadCall pair r).loaded) ↔ q ∈ r.loaded) := by
  by_cases h : pair ∈ r.loaded
  · rw [runLoadCall_eq, if_pos h, runLoadCall_eq, if_pos h]
    exact ⟨fun _ => rfl, h, rfl, Nat.le_succ _, fun q _ => Iff.rfl⟩
  · rw [runLoadCall_eq, if_neg h, runLoadCall_eq]
    rw [if_pos (by exact List.mem_cons_self _ _)]
    refine ⟨fun hmem => absurd hmem h, List.mem_cons_self _ _, rfl, Nat.le_refl _, ?_⟩
    intro q hq
    simp [List.mem_cons, hq]

/-- Claim C9 witness for the amended theorem: a registry already holding
the pair is unchanged by a repeat call, and loading en-hi does not
register hi-en. -/
theorem C9_witness :
    runLoadCall cxPair ⟨[cxPair], 5⟩ = ⟨[cxPair], 5⟩
  ∧ ((("hi", "en") ∈ (runLoadCall cxPair ⟨[], 0⟩).loaded) ↔
      (("hi", "en") ∈ (⟨[], 0⟩ : RegSt).loaded)) :=
  ⟨(C9_single_flight_amended cxPair ⟨[cxPair], 5⟩).1 (by decide),
   (C9_single_flight_amended cxPair ⟨[], 0⟩).2.2.2.2 ("hi", "en") (by decide)⟩

/- Lemmas on the word structure of splitWs and joinSpace. -/

theorem splitWs_words (l : List Char) :
    ∀ w ∈ splitWs l, w ≠ [] ∧ ∀ c ∈ w, pyIsSpace c = false := by
  induction l with
  | nil => intro w hw; simp [splitWs] at hw
  | cons c cs ih =>
    intro w hw
    rw [splitWs] at hw
    by_cases hc : pyIsSpace c = true
    · rw [if_pos hc] at hw
      exact ih w hw
    · rw [if_neg hc] at hw
      have hcf : pyIsSpace c = false := by simpa using hc
      by_cases hd : pyIsSpace (headOr cs ' ') = true
      · rw [if_pos hd] at hw
        rcases List.mem_cons.mp hw with rfl | hw
        · refine ⟨by simp, ?_⟩
          intro x hx
          rw [List.mem_singleton] at hx
          subst hx
          exact hcf
        · exact ih w hw
      · rw [if_neg hd] at hw
        cases hsp : splitWs cs with
        | nil =>
          rw [hsp] at hw
          simp only [consFirst, List.mem_singleton] at hw
          subst hw
          refine ⟨by simp, ?_⟩
          intro x hx
          rw [List.mem_singleton] at hx
          subst hx
          exact hcf
        | cons w0 ws0 =>
          rw [hsp] at hw
          simp only [consFirst] at hw
          rcases List.mem_cons.mp hw with rfl | hw
          · have h0 := ih w0 (by rw [hsp]; exact List.mem_cons_self _ _)
            refine ⟨by simp, ?_⟩
            intro x hx
            rcases List.mem_cons.mp hx with rfl | hx
            · exact hcf
            · exact h0.2 x hx
          · exact ih w (by rw [hsp]; exact List.mem_cons.mpr (Or.inr hw))

theorem joinSpace_cons_cons (w v : List Char) (ws : List (List Char)) :
    joinSpace (w :: v :: ws) = w ++ ' ' :: joinSpace (v :: ws) := rfl

theorem joinSpace_consFirst (c : Char) (ws : List (List Char)) :
    joinSpace (consFirst c ws) = c :: joinSpace ws := by
  cases ws with
  | nil => rfl
  | cons w ws' =>
    cases ws' with
    | nil => rfl
    | cons v ws'' => rfl

theorem splitWs_word_append (w l : List Char) (hw : w ≠ [])
    (hnw : ∀ c ∈ w, pyIsSpace c = false)
    (hl : l = [] ∨ pyIsSpace (headOr l ' ') = true) :
    splitWs (w ++ l) = w :: splitWs l := by
  induction w with
  | nil => cases hw rfl
  | cons a w' ih =>
    have ha : pyIsSpace a = false := hnw a (List.mem_cons_self _ _)
    rw [List.cons_append, splitWs, if_neg (by simp [ha])]
    cases w' with
    | nil =>
      simp only [List.nil_append]
      rcases hl with rfl | hl
      · rw [if_pos (by decide)]
      · rw [if_pos (by cases l with | nil => decide | cons x xs => simpa using hl)]
    | cons b w'' =>
      have hb : pyIsSpace b = false := hnw b (by simp)
      rw [if_neg (by rw [List.cons_append, headOr_cons]; simp [hb])]
      rw [ih (List.cons_ne_nil _ _) (fun x hx => hnw x (List.mem_cons_of_mem _ hx))]
      rfl

theorem splitWs_joinSpace (ws : List (List Char))
    (h : ∀ w ∈ ws, w ≠ [] ∧ ∀ c ∈ w, pyIsSpace c = false) :
    splitWs (joinSpace ws) = ws := by
  induction ws with
  | nil => rfl
  | cons w ws' ih =>
    cases ws' with
    | nil =>
      have hw := h w (List.mem_cons_self _ _)
      have := splitWs_word_append w [] hw.1 hw.2 (Or.inl rfl)
      simpa using this
    | cons v ws'' =>
      rw [joinSpace_cons_cons]
      have hw := h w (List.mem_cons_self _ _)
      have hws : pyIsSpace (headOr (' ' :: joinSpace (v :: ws'')) ' ') = true := by
        rw [show headOr (' ' :: joinSpace (v :: ws'')) ' ' = ' ' from rfl]
        decide
      rw [splitWs_word_append w (' ' :: joinSpace (v :: ws'')) hw.1 hw.2 (Or.inr hws)]
      rw [splitWs, if_pos (by decide)]
      rw [ih (fun x hx => h x (List.mem_cons_of_mem _ hx))]

/- Lemmas on collapsePunct. -/

theorem collapsePunct_cons_of_not_punct (e : Char) (cs : List Char)
    (he : isTermPunct e = false) :
    collapsePunct (e :: cs) = e :: collapsePunct cs := by
  rw [collapsePunct, if_neg (by simp [he])]

theorem collapsePunct_singleton (c : Char) : collapsePunct [c] = [c] := by
  have h : (isTermPunct c && isTermPunct (headOr ([] : List Char) ' ')) = false := by
    rw [show isTermPunct (headOr ([] : List Char) ' ') = false by decide, Bool.and_false]
  rw [collapsePunct, if_neg (by simp [h])]
  rfl

theorem collapsePunct_append (a b : List Char)
    (hb : b = [] ∨ isTermPunct (headOr b ' ') = false) :
    collapsePunct (a ++ b) = collapsePunct a ++ collapsePunct b := by
  induction a with
  | nil => simp [collapsePunct]
  | cons c a' ih =>
    cases a' with
    | nil =>
      have hcond : (isTermPunct c && isTermPunct (headOr b ' ')) = false := by
        rcases hb with rfl | hb
        · rw [show isTermPunct (headOr ([] : List Char) ' ') = false by decide, Bool.and_false]
        · rw [hb, Bool.and_false]
      rw [List.singleton_append, collapsePunct, if_neg (by simp [hcond]),
        collapsePunct_singleton]
      rfl
    | cons d a'' =>
      rw [List.cons_append] at ih
      rw [List.cons_append, List.cons_append, collapsePunct, headOr_cons]
      by_cases hc : (isTermPunct c && isTermPunct d) = true
      · rw [if_pos hc, ih]
        conv_rhs => rw [collapsePunct]
        rw [headOr_cons, if_pos hc]
      · rw [if_neg hc, ih]
        conv_rhs => rw [collapsePunct]
        rw [headOr_cons, if_neg hc, List.cons_append]

theorem collapsePunct_ne_nil (l : List Char) (h : l ≠ []) : collapsePunct l ≠ [] := by
  induction l with
  | nil => cases h rfl
  | cons c cs ih =>
    rw [collapsePunct]
    by_cases hc : (isTermPunct c && isTermPunct (headOr cs ' ')) = true
    · rw [if_pos hc]
      have hcs : cs ≠ [] := by
        intro hnil
        subst hnil
        rw [show isTermPunct (headOr ([] : List Char) ' ') = false by decide,
          Bool.and_false] at hc
        exact absurd hc (by decide)
      exact ih hcs
    · rw [if_neg hc]
      simp

theorem mem_collapsePunct (l : List Char) : ∀ c ∈ collapsePunct l, c ∈ l := by
  induction l with
  | nil => intro c hc; simp [collapsePunct] at hc
  | cons x cs ih =>
    intro c hc
    rw [collapsePunct] at hc
    by_cases hx : (isTermPunct x && isTermPunct (headOr cs ' ')) = true
    · rw [if_pos hx] at hc
      exact List.mem_cons_of_mem _ (ih c hc)
    · rw [if_neg hx] at hc
      rcases List.mem_cons.mp hc with rfl | hc
      · exact List.mem_cons_self _ _
      · exact List.mem_cons_of_mem _ (ih c hc)

theorem collapsePunct_noAdj (l : List Char) : noAdjPunct (collapsePunct l) = true := by
  induction l with
  | nil => rfl
  | cons c cs ih =>
    rw [collapsePunct]
    by_cases hc : (isTermPunct c && isTermPunct (headOr cs ' ')) = true
    · rw [if_pos hc]
      exact ih
    · rw [if_neg hc]
      cases hcol : collapsePunct cs with
      | nil => rfl
      | cons d r =>
        rw [hcol] at ih
        rw [noAdjPunct, ih, Bool.and_true]
        by_cases hcp : isTermPunct c = true
        · have hdns : isTermPunct d = false := by
            cases cs with
            | nil =>
              rw [show collapsePunct ([] : List Char) = [] from rfl] at hcol
              cases hcol
            | cons e cs' =>
              have he : isTermPunct e = false := by
                by_cases he' : isTermPunct e = true
                · exact absurd (by rw [headOr_cons]; simp [hcp, he']) hc
                · simpa using he'
              rw [collapsePunct_cons_of_not_punct e cs' he] at hcol
              have hde : e = d := by injection hcol
              rw [← hde, he]
          rw [hdns, Bool.and_false]
          rfl
        · rw [show isTermPunct c = false by simpa using hcp, Bool.false_and]
          rfl

theorem noAdjPunct_collapse_id (l : List Char) (h : noAdjPunct l = true) :
    collapsePunct l = l := by
  induction l with
  | nil => rfl
  | cons c cs ih =>
    cases cs with
    | nil => exact collapsePunct_singleton c
    | cons d r =>
      rw [noAdjPunct] at h
      obtain ⟨hl, h2⟩ := (by simpa using h :
        (isTermPunct c = false ∨ isTermPunct d = false) ∧ noAdjPunct (d :: r) = true)
      have hl' : (isTermPunct c && isTermPunct d) = false := by
        rcases hl with hl | hl <;> simp [hl]
      rw [collapsePunct, headOr_cons, if_neg (by simp [hl'])]
      rw [ih h2]

theorem collapsePunct_idem (l : List Char) :
    collapsePunct (collapsePunct l) = collapsePunct l :=
  noAdjPunct_collapse_id _ (collapsePunct_noAdj l)

theorem collapsePunct_joinSpace (ws : List (List Char)) :
    collapsePunct (joinSpace ws) = joinSpace (ws.map collapsePunct) := by
  induction ws with
  | nil => rfl
  | cons w ws' ih =>
    cases ws' with
    | nil => rfl
    | cons v ws'' =>
      have hsp : isTermPunct (headOr (' ' :: joinSpace (v :: ws'')) ' ') = false := by
        rw [headOr_cons]
        decide
      rw [joinSpace_cons_cons,
        collapsePunct_append w (' ' :: joinSpace (v :: ws'')) (Or.inr hsp),
        collapsePunct_cons_of_not_punct ' ' _ (by decide), ih]
      conv_rhs => rw [List.map_cons, List.map_cons, joinSpace_cons_cons]
      rw [List.map_cons]

/- Lemmas on pyStrip. -/

theorem dropWhile_length_le (p : Char → Bool) (l : List Char) :
    (l.dropWhile p).length ≤ l.length := by
  induction l with
  | nil => simp
  | cons a as ih =>
    rw [List.dropWhile_cons]
    split
    · exact Nat.le_trans ih (Nat.le_succ _)
    · exact Nat.le_refl _

theorem rstripWs_append_last (l : List Char) (a : Char) (ha : pyIsSpace a = false) :
    rstripWs (l ++ [a]) = l ++ [a] := by
  induction l with
  | nil => simp [rstripWs, ha]
  | cons c l' ih =>
    rw [List.cons_append, rstripWs, ih]
    simp

theorem joinSpace_concat_form (ws : List (List Char)) (hne : ws ≠ [])
    (h : ∀ w ∈ ws, w ≠ [] ∧ ∀ c ∈ w, pyIsSpace c = false) :
    ∃ l a, joinSpace ws = l ++ [a] ∧ pyIsSpace a = false := by
  induction ws with
  | nil => cases hne rfl
  | cons w ws' ih =>
    cases ws' with
    | nil =>
      have hw := h w (List.mem_cons_self _ _)
      rcases List.eq_nil_or_concat w with rfl | ⟨L, b, rfl⟩
      · cases hw.1 rfl
      · exact ⟨L, b, by simp [joinSpace], hw.2 b (by simp)⟩
    | cons v ws'' =>
      obtain ⟨l, a, hja, hans⟩ := ih (by simp) (fun x hx => h x (List.mem_cons_of_mem _ hx))
      refine ⟨w ++ ' ' :: l, a, ?_, hans⟩
      rw [joinSpace_cons_cons, hja]
      simp

theorem pyStrip_joinSpace (ws : List (List Char))
    (h : ∀ w ∈ ws, w ≠ [] ∧ ∀ c ∈ w, pyIsSpace c = false) :
    pyStrip (joinSpace ws) = joinSpace ws := by
  cases ws with
  | nil => rfl
  | cons w ws' =>
    have hw := h w (List.mem_cons_self _ _)
    obtain ⟨b, w', rfl⟩ : ∃ b w', w = b :: w' := by
      cases w with
      | nil => cases hw.1 rfl
      | cons b w' => exact ⟨b, w', rfl⟩
    have hb : pyIsSpace b = false := hw.2 b (List.mem_cons_self _ _)
    have hjoin : joinSpace ((b :: w') :: ws') = b :: joinSpace (w' :: ws') := by
      have : consFirst b (w' :: ws') = (b :: w') :: ws' := rfl
      rw [← this, joinSpace_consFirst]
    obtain ⟨l, a, hja, hans⟩ := joinSpace_concat_form ((b :: w') :: ws') (by simp) h
    rw [pyStrip, hjoin, lstripWs, List.dropWhile_cons_of_neg (by simp [hb]), ← hjoin, hja]
    exact rstripWs_append_last l a hans

theorem splitWs_map_collapse_good (l : List Char) :
    ∀ w ∈ (splitWs l).map collapsePunct, w ≠ [] ∧ ∀ c ∈ w, pyIsSpace c = false := by
  intro w hw
  rw [List.mem_map] at hw
  obtain ⟨w0, hw0, rfl⟩ := hw
  have h0 := splitWs_words l w0 hw0
  exact ⟨collapsePunct_ne_nil w0 h0.1, fun c hc => h0.2 c (mem_collapsePunct w0 c hc)⟩

theorem preprocess_text_NF (l : List Char) :
    preprocess_text l = joinSpace ((splitWs l).map collapsePunct) := by
  rw [preprocess_text]
  by_cases h : l.isEmpty = true
  · have : l = [] := by simpa using h
    subst this
    rfl
  · rw [if_neg h, collapsePunct_joinSpace]
    exact pyStrip_joinSpace _ (splitWs_map_collapse_good l)

/-- Claim C4: Normalize is idempotent: preprocess_text applied twice
equals preprocess_text applied once, for every character sequence, and
likewise on the String wrapper used by the pipeline. -/
theorem C4_normalize_idempotent (s : String) :
    preprocessStr (preprocessStr s) = preprocessStr s
  ∧ ∀ l : List Char, preprocess_text (preprocess_text l) = preprocess_text l := by
  have main : ∀ l : List Char, preprocess_text (preprocess_text l) = preprocess_text l := by
    intro l
    rw [preprocess_text_NF l, preprocess_text_NF (joinSpace ((splitWs l).map collapsePunct)),
      splitWs_joinSpace _ (splitWs_map_collapse_good l), List.map_map]
    congr 1
    exact List.map_congr_left (fun w _ => collapsePunct_idem w)
  refine ⟨?_, main⟩
  show String.mk (preprocess_text (preprocess_text s.data)) = String.mk (preprocess_text s.data)
  exact congrArg String.mk (main s.data)

/- Lemmas for chunk_text (claim C7). -/

theorem prependPart_flatten (pre : List Char) (L : List (List Char)) :
    (prependPart pre L).flatten = pre ++ L.flatten := by
  cases L with
  | nil => simp [prependPart]
  | cons p ps => simp [prependPart]

theorem splitSentences_flatten (l : List Char) : (splitSentences l).flatten = l := by
  induction l using splitSentences.induct with
  | case1 => simp [splitSentences]
  | case2 c cs h rest hws ih =>
    rw [splitSentences, if_pos h]
    simp only [if_pos hws, List.flatten_cons, List.nil_append, ih, List.cons_append,
      List.append_assoc, List.takeWhile_append_dropWhile]
  | case3 c cs h rest hws ih =>
    rw [splitSentences, if_pos h]
    simp only [if_neg hws, prependPart_flatten, ih, List.cons_append]
    exact congrArg (fun x => c :: x) (List.takeWhile_append_dropWhile isTermPunct cs)
  | case4 c cs h ih =>
    rw [splitSentences, if_neg h, prependPart_flatten, ih]
    rfl

theorem pairUp_flatten (L : List (List Char)) : (pairUp L).flatten = L.flatten := by
  induction L using pairUp.induct with
  | case1 => rfl
  | case2 p => rfl
  | case3 p s rest ih => simp [pairUp, ih]

theorem filter_dropWhile_ws (l : List Char) :
    (l.dropWhile pyIsSpace).filter (fun c => !pyIsSpace c) =
      l.filter (fun c => !pyIsSpace c) := by
  induction l with
  | nil => rfl
  | cons c cs ih =>
    rw [List.dropWhile_cons]
    by_cases hc : pyIsSpace c = true
    · rw [if_pos hc, List.filter_cons_of_neg (by simp [hc])]
      exact ih
    · rw [if_neg hc]

theorem rstrip_length_le (l : List Char) : (rstripWs l).length ≤ l.length := by
  induction l with
  | nil => simp [rstripWs]
  | cons c cs ih =>
    simp only [rstripWs]
    split
    · simp
    · simp only [List.length_cons]
      omega

theorem pyStrip_length_le (l : List Char) : (pyStrip l).length ≤ l.length :=
  Nat.le_trans (rstrip_length_le (lstripWs l)) (dropWhile_length_le pyIsSpace l)

theorem rstrip_eq_nil_allWs (l : List Char) :
    rstripWs l = [] ↔ ∀ c ∈ l, pyIsSpace c = true := by
  induction l with
  | nil => simp [rstripWs]
  | cons c cs ih =>
    simp only [rstripWs]
    by_cases hcond : ((rstripWs cs).isEmpty && pyIsSpace c) = true
    · rw [if_pos hcond]
      obtain ⟨he, hc⟩ := (by simpa using hcond :
        (rstripWs cs).isEmpty = true ∧ pyIsSpace c = true)
      have hcs : ∀ x ∈ cs, pyIsSpace x = true := ih.mp (List.isEmpty_iff.mp he)
      constructor
      · intro _ x hx
        rcases List.mem_cons.mp hx with rfl | hx
        · exact hc
        · exact hcs x hx
      · intro _
        rfl
    · rw [if_neg hcond]
      constructor
      · intro habs
        cases habs
      · intro hall
        exfalso
        apply hcond
        have hc := hall c (List.mem_cons_self _ _)
        have hnil : rstripWs cs = [] := ih.mpr (fun x hx => hall x (List.mem_cons_of_mem _ hx))
        simp [hnil, hc]

theorem filter_rstrip_ws (l : List Char) :
    (rstripWs l).filter (fun c => !pyIsSpace c) = l.filter (fun c => !pyIsSpace c) := by
  induction l with
  | nil => rfl
  | cons c cs ih =>
    simp only [rstripWs]
    by_cases hcond : ((rstripWs cs).isEmpty && pyIsSpace c) = true
    · rw [if_pos hcond]
      obtain ⟨he, hc⟩ := (by simpa using hcond :
        (rstripWs cs).isEmpty = true ∧ pyIsSpace c = true)
      have hcs : ∀ x ∈ cs, pyIsSpace x = true :=
        (rstrip_eq_nil_allWs cs).mp (List.isEmpty_iff.mp he)
      rw [List.filter_cons_of_neg (by simp [hc])]
      rw [show (List.filter (fun c => !pyIsSpace c) cs) = [] from
        List.filter_eq_nil_iff.mpr (fun x hx => by simp [hcs x hx])]
      rfl
    · rw [if_neg hcond, List.filter_cons, List.filter_cons, ih]

theorem pyStrip_filter (l : List Char) :
    (pyStrip l).filter (fun c => !pyIsSpace c) = l.filter (fun c => !pyIsSpace c) := by
  rw [pyStrip, lstripWs, filter_rstrip_ws, filter_dropWhile_ws]

theorem chunkLoop_eq_nil (maxLength : Nat) (fs : List (List Char)) :
    ∀ cur, chunkLoop maxLength cur fs = [] → cur ++ fs.flatten = [] := by
  induction fs with
  | nil =>
    intro cur h
    rw [chunkLoop] at h
    by_cases hc : cur.isEmpty = true
    · simp [List.isEmpty_iff.mp hc]
    · rw [if_neg hc] at h
      cases h
  | cons f fs' ih =>
    intro cur h
    rw [chunkLoop] at h
    by_cases h1 : cur.length + f.length ≤ maxLength
    · rw [if_pos h1] at h
      have := ih (cur ++ f) h
      simpa [List.append_assoc] using this
    · rw [if_neg h1] at h
      by_cases h2 : cur.isEmpty = true
      · have := ih f (by rwa [if_pos h2] at h)
        simp [List.isEmpty_iff.mp h2, List.flatten_cons, this]
      · rw [if_neg h2] at h
        cases h

theorem chunkLoop_filter (maxLength : Nat) (fs : List (List Char)) :
    ∀ cur, ((chunkLoop maxLength cur fs).flatten).filter (fun c => !pyIsSpace c) =
      (cur ++ fs.flatten).filter (fun c => !pyIsSpace c) := by
  induction fs with
  | nil =>
    intro cur
    rw [chunkLoop]
    by_cases hc : cur.isEmpty = true
    · simp [List.isEmpty_iff.mp hc]
    · rw [if_neg hc]
      simp [pyStrip_filter]
  | cons f fs' ih =>
    intro cur
    rw [chunkLoop]
    by_cases h1 : cur.length + f.length ≤ maxLength
    · rw [if_pos h1, ih]
      simp [List.append_assoc]
    · rw [if_neg h1]
      by_cases h2 : cur.isEmpty = true
      · rw [if_pos h2, ih]
        simp [List.isEmpty_iff.mp h2]
      · rw [if_neg h2]
        simp only [List.flatten_cons, List.filter_append, pyStrip_filter, ih,
          List.append_assoc]

theorem chunkLoop_chunks (maxLength : Nat) (S : List (List Char)) (fs : List (List Char)) :
    ∀ cur, (cur.length ≤ maxLength ∨ cur ∈ S) → (∀ f ∈ fs, f ∈ S) →
    ∀ ch ∈ chunkLoop maxLength cur fs,
      ch.length ≤ maxLength ∨ ∃ f ∈ S, ch = pyStrip f ∧ maxLength < f.length := by
  induction fs with
  | nil =>
    intro cur hcur _ ch hch
    rw [chunkLoop] at hch
    by_cases hc : cur.isEmpty = true
    · rw [if_pos hc] at hch
      cases hch
    · rw [if_neg hc] at hch
      rw [List.mem_singleton] at hch
      subst hch
      by_cases hlen : cur.length ≤ maxLength
      · exact Or.inl (Nat.le_trans (pyStrip_length_le cur) hlen)
      · rcases hcur with hcur | hcur
        · exact absurd hcur hlen
        · exact Or.inr ⟨cur, hcur, rfl, by omega⟩
  | cons f fs' ih =>
    intro cur hcur hfs ch hch
    rw [chunkLoop] at hch
    by_cases h1 : cur.length + f.length ≤ maxLength
    · rw [if_pos h1] at hch
      refine ih (cur ++ f) (Or.inl ?_) (fun x hx => hfs x (List.mem_cons_of_mem _ hx)) ch hch
      rw [List.length_append]
      omega
    · rw [if_neg h1] at hch
      by_cases h2 : cur.isEmpty = true
      · rw [if_pos h2] at hch
        exact ih f (Or.inr (hfs f (List.mem_cons_self _ _)))
          (fun x hx => hfs x (List.mem_cons_of_mem _ hx)) ch hch
      · rw [if_neg h2] at hch
        rcases List.mem_cons.mp hch with rfl | hch
        · by_cases hlen : cur.length ≤ maxLength
          · exact Or.inl (Nat.le_trans (pyStrip_length_le cur) hlen)
          · rcases hcur with hcur | hcur
            · exact absurd hcur hlen
            · exact Or.inr ⟨cur, hcur, rfl, by omega⟩
        · exact ih f (Or.inr (hfs f (List.mem_cons_self _ _)))
            (fun x hx => hfs x (List.mem_cons_of_mem _ hx)) ch hch

/-- Claim C7: for every text and maxLength of at least 1, chunk_text
returns a non-empty (finite, ordered) list; a text within the bound is
returned as the single chunk [text]; the concatenation of the chunks
reproduces the sentence content of the text (equality after erasing
whitespace, which is what inter-chunk boundary stripping loses); and
every chunk is within the bound except one that is a (stripped) single
oversized full sentence, emitted alone. -/
theorem C7_segmentation (text : List Char) (maxLength : Nat) (hmax : 1 ≤ maxLength) :
    chunk_text text maxLength ≠ []
  ∧ (text.length ≤ maxLength → chunk_text text maxLength = [text])
  ∧ ((chunk_text text maxLength).flatten.filter (fun c => !pyIsSpace c)
       = text.filter (fun c => !pyIsSpace c))
  ∧ ∀ ch ∈ chunk_text text maxLength,
      ch.length ≤ maxLength ∨
      ∃ f ∈ pairUp (splitSentences text), ch = pyStrip f ∧ maxLength < f.length := by
  by_cases hlen : text.length ≤ maxLength
  · rw [chunk_text, if_pos hlen]
    refine ⟨by simp, fun _ => rfl, by simp, ?_⟩
    intro ch hch
    rw [List.mem_singleton] at hch
    subst hch
    exact Or.inl hlen
  · rw [chunk_text, if_neg hlen]
    have hflat : (pairUp (splitSentences text)).flatten = text := by
      rw [pairUp_flatten, splitSentences_flatten]
    refine ⟨?_, fun h => absurd h hlen, ?_, ?_⟩
    · intro hnil
      have := chunkLoop_eq_nil maxLength (pairUp (splitSentences text)) [] hnil
      rw [List.nil_append, hflat] at this
      subst this
      exact hlen (by simp)
    · rw [chunkLoop_filter, List.nil_append, hflat]
    · intro ch hch
      exact chunkLoop_chunks maxLength (pairUp (splitSentences text))
        (pairUp (splitSentences text)) [] (Or.inl (by simp)) (fun f hf => hf) ch hch

/-- Claim C7 witness: a concrete segmentation with bound 12. -/
theorem C7_witness :
    chunk_text ("One two. Three four! Five six? Seven.".data) 12 ≠ []
  ∧ (("One two. Three four! Five six? Seven.".data).length ≤ 12 →
      chunk_text ("One two. Three four! Five six? Seven.".data) 12 =
        ["One two. Three four! Five six? Seven.".data])
  ∧ ((chunk_text ("One two. Three four! Five six? Seven.".data) 12).flatten.filter
       (fun c => !pyIsSpace c)
       = ("One two. Three four! Five six? Seven.".data).filter (fun c => !pyIsSpace c))
  ∧ ∀ ch ∈ chunk_text ("One two. Three four! Five six? Seven.".data) 12,
      ch.length ≤ 12 ∨
      ∃ f ∈ pairUp (splitSentences ("One two. Three four! Five six? Seven.".data)),
        ch = pyStrip f ∧ 12 < f.length :=
  C7_segmentation ("One two. Three four! Five six? Seven.".data) 12 (by decide)

/- Lemmas for the Normalize refinement (claim C8). -/

theorem ws_not_punct {c : Char} (h : pyIsSpace c = true) : isTermPunct c = false := by
  obtain h2 := (by simpa [pyIsSpace] using h :
    ((((c = ' ' ∨ c = '\t') ∨ c = '\n') ∨ c = '\r') ∨ c = '\x0b') ∨ c = '\x0c')
  rcases h2 with ((((h3 | h3) | h3) | h3) | h3) | h3 <;> subst h3 <;> decide

theorem punct_not_ws {c : Char} (h : isTermPunct c = true) : pyIsSpace c = false := by
  obtain h2 := (by simpa [isTermPunct] using h : (c = '!' ∨ c = '?') ∨ c = '.')
  rcases h2 with (h3 | h3) | h3 <;> subst h3 <;> decide

theorem collapsePunct_id_no_punct (l : List Char)
    (h : ∀ c ∈ l, isTermPunct c = false) : collapsePunct l = l := by
  induction l with
  | nil => rfl
  | cons c cs ih =>
    rw [collapsePunct_cons_of_not_punct c cs (h c (List.mem_cons_self _ _))]
    rw [ih (fun x hx => h x (List.mem_cons_of_mem _ hx))]

theorem collapsePunct_head_not_ws (e : Char) (cs : List Char) (he : pyIsSpace e = false) :
    ∃ d r, collapsePunct (e :: cs) = d :: r ∧ pyIsSpace d = false := by
  induction cs generalizing e with
  | nil => exact ⟨e, [], collapsePunct_singleton e, he⟩
  | cons f cs' ih =>
    rw [collapsePunct, headOr_cons]
    by_cases hc : (isTermPunct e && isTermPunct f) = true
    · rw [if_pos hc]
      have hf : isTermPunct f = true := (by simpa using hc :
        isTermPunct e = true ∧ isTermPunct f = true).2
      exact ih f (punct_not_ws hf)
    · rw [if_neg hc]
      exact ⟨e, collapsePunct (f :: cs'), rfl, he⟩

theorem lstrip_collapsePunct (l : List Char) :
    lstripWs (collapsePunct l) = collapsePunct (lstripWs l) := by
  induction l with
  | nil => rfl
  | cons c cs ih =>
    by_cases hc : pyIsSpace c = true
    · rw [collapsePunct_cons_of_not_punct c cs (ws_not_punct hc)]
      rw [lstripWs, List.dropWhile_cons_of_pos hc]
      rw [show lstripWs (c :: cs) = lstripWs cs from List.dropWhile_cons_of_pos hc]
      exact ih
    · have hcf : pyIsSpace c = false := by simpa using hc
      obtain ⟨d, r, hdr, hd⟩ := collapsePunct_head_not_ws c cs hcf
      rw [hdr, lstripWs, List.dropWhile_cons_of_neg (by simp [hd]), ← hdr]
      rw [show lstripWs (c :: cs) = c :: cs from List.dropWhile_cons_of_neg (by simp [hcf])]

theorem rstrip_cons_shape (x : Char) (xs : List Char) :
    rstripWs (x :: xs) = [] ∨ rstripWs (x :: xs) = x :: rstripWs xs := by
  simp only [rstripWs]
  split
  · exact Or.inl rfl
  · exact Or.inr rfl

theorem rstrip_collapsePunct (l : List Char) :
    rstripWs (collapsePunct l) = collapsePunct (rstripWs l) := by
  induction l with
  | nil => rfl
  | cons c cs ih =>
    by_cases hcond : ((rstripWs cs).isEmpty && pyIsSpace c) = true
    · obtain ⟨he, hws⟩ := (by simpa using hcond :
        (rstripWs cs).isEmpty = true ∧ pyIsSpace c = true)
      have hnil : rstripWs cs = [] := List.isEmpty_iff.mp he
      have hallws : ∀ x ∈ cs, pyIsSpace x = true := (rstrip_eq_nil_allWs cs).mp hnil
      have hcsid : collapsePunct cs = cs :=
        collapsePunct_id_no_punct cs (fun x hx => ws_not_punct (hallws x hx))
      rw [collapsePunct_cons_of_not_punct c cs (ws_not_punct hws), hcsid]
      rw [show rstripWs (c :: cs) = [] by simp only [rstripWs]; rw [if_pos hcond]]
      rfl
    · have hrc : rstripWs (c :: cs) = c :: rstripWs cs := by
        simp only [rstripWs]
        rw [if_neg hcond]
      rw [hrc]
      by_cases hwc : pyIsSpace c = true
      · have hne : rstripWs cs ≠ [] := by
          intro hnil
          exact hcond (by simp [hnil, hwc])
        rw [collapsePunct_cons_of_not_punct c cs (ws_not_punct hwc)]
        rw [collapsePunct_cons_of_not_punct c (rstripWs cs) (ws_not_punct hwc)]
        have hstep : rstripWs (c :: collapsePunct cs) = c :: rstripWs (collapsePunct cs) := by
          simp only [rstripWs]
          rw [if_neg ?hne2]
          case hne2 =>
            intro habs
            obtain ⟨habs1, _⟩ := (by simpa using habs :
              (rstripWs (collapsePunct cs)).isEmpty = true ∧ pyIsSpace c = true)
            rw [ih] at habs1
            exact collapsePunct_ne_nil _ hne (List.isEmpty_iff.mp habs1)
        rw [hstep, ih]
      · have hwcf : pyIsSpace c = false := by simpa using hwc
        rw [collapsePunct, collapsePunct]
        by_cases hp : (isTermPunct c && isTermPunct (headOr cs ' ')) = true
        · obtain ⟨hpc, hph⟩ := (by simpa using hp :
            isTermPunct c = true ∧ isTermPunct (headOr cs ' ') = true)
          cases cs with
          | nil => simp [headOr_nil, isTermPunct] at hph
          | cons f cs' =>
            rw [headOr_cons] at hph
            have hrf : rstripWs (f :: cs') = f :: rstripWs cs' := by
              simp only [rstripWs]
              rw [if_neg (by simp [punct_not_ws hph])]
            rw [if_pos hp, hrf, headOr_cons, if_pos (by simp [hpc, hph]), ← hrf]
            exact ih
        · rw [if_neg hp]
          have hp2 : (isTermPunct c && isTermPunct (headOr (rstripWs cs) ' ')) = false := by
            by_cases hpc : isTermPunct c = true
            · cases cs with
              | nil => simp [rstripWs, headOr_nil, isTermPunct]
              | cons f cs' =>
                rcases rstrip_cons_shape f cs' with hsh | hsh
                · rw [hsh, headOr_nil]
                  simp [isTermPunct]
                · rw [hsh, headOr_cons]
                  rw [headOr_cons] at hp
                  have hf : isTermPunct f = false := by
                    by_cases hf' : isTermPunct f = true
                    · exact absurd (by simp [hpc, hf']) hp
                    · simpa using hf'
                  rw [hf, Bool.and_false]
            · rw [show isTermPunct c = false by simpa using hpc, Bool.false_and]
          rw [if_neg (by simp [hp2])]
          have hstep : rstripWs (c :: collapsePunct cs) = c :: rstripWs (collapsePunct cs) := by
            simp only [rstripWs]
            rw [if_neg (by simp [hwcf])]
          rw [hstep, ih]

theorem lstrip_idem (l : List Char) : lstripWs (lstripWs l) = lstripWs l := by
  induction l with
  | nil => rfl
  | cons c cs ih =>
    by_cases hc : pyIsSpace c = true
    · rw [show lstripWs (c :: cs) = lstripWs cs from List.dropWhile_cons_of_pos hc]
      exact ih
    · rw [show lstripWs (c :: cs) = c :: cs from List.dropWhile_cons_of_neg (by simpa using hc)]
      exact List.dropWhile_cons_of_neg (by simpa using hc)

theorem rstrip_idem (l : List Char) : rstripWs (rstripWs l) = rstripWs l := by
  induction l with
  | nil => rfl
  | cons c cs ih =>
    by_cases hcond : ((rstripWs cs).isEmpty && pyIsSpace c) = true
    · rw [show rstripWs (c :: cs) = [] by simp only [rstripWs]; rw [if_pos hcond]]
      rfl
    · have hrc : rstripWs (c :: cs) = c :: rstripWs cs := by
        simp only [rstripWs]
        rw [if_neg hcond]
      rw [hrc]
      simp only [rstripWs]
      rw [ih, if_neg hcond]

theorem lstrip_rstrip_comm (l : List Char) :
    lstripWs (rstripWs l) = rstripWs (lstripWs l) := by
  induction l with
  | nil => rfl
  | cons c cs ih =>
    by_cases hc : pyIsSpace c = true
    · rw [show lstripWs (c :: cs) = lstripWs cs from List.dropWhile_cons_of_pos hc]
      by_cases hnil : rstripWs cs = []
      · rw [show rstripWs (c :: cs) = [] by
          simp only [rstripWs]; rw [if_pos (by simp [hnil, hc])]]
        rw [← ih, hnil]
      · rw [show rstripWs (c :: cs) = c :: rstripWs cs by
          simp only [rstripWs]; rw [if_neg (by simp [hnil])]]
        rw [show lstripWs (c :: rstripWs cs) = lstripWs (rstripWs cs) from
          List.dropWhile_cons_of_pos hc]
        exact ih
    · have hcf : pyIsSpace c = false := by simpa using hc
      rw [show rstripWs (c :: cs) = c :: rstripWs cs by
        simp only [rstripWs]; rw [if_neg (by simp [hcf])]]
      rw [show lstripWs (c :: rstripWs cs) = c :: rstripWs cs from
        List.dropWhile_cons_of_neg (by simp [hcf])]
      rw [show lstripWs (c :: cs) = c :: cs from List.dropWhile_cons_of_neg (by simp [hcf])]
      simp only [rstripWs]
      rw [if_neg (by simp [hcf])]

theorem pyStrip_idem (l : List Char) : pyStrip (pyStrip l) = pyStrip l := by
  rw [pyStrip, pyStrip, lstrip_rstrip_comm, rstrip_idem, lstrip_idem]

theorem pyStrip_collapse_pyStrip (u : List Char) :
    pyStrip (collapsePunct (pyStrip u)) = pyStrip (collapsePunct u) := by
  have h1 : collapsePunct (pyStrip u) = pyStrip (collapsePunct u) := by
    rw [pyStrip, pyStrip, ← rstrip_collapsePunct, ← lstrip_collapsePunct]
  rw [h1, pyStrip_idem]

theorem dropWhile_head_not (p : Char → Bool) (l : List Char) (d : Char) :
    l.dropWhile p = [] ∨ p (headOr (l.dropWhile p) d) = false := by
  induction l with
  | nil => exact Or.inl rfl
  | cons a as ih =>
    rw [List.dropWhile_cons]
    by_cases h : p a = true
    · rw [if_pos h]
      exact ih
    · rw [if_neg h]
      right
      rw [headOr_cons]
      simpa using h

theorem collapsePunct_punct_run (rest : List Char) (r : List Char) (hr : r ≠ [])
    (hall : ∀ c ∈ r, isTermPunct c = true)
    (hrest : rest = [] ∨ isTermPunct (headOr rest ' ') = false) :
    collapsePunct (r ++ rest) = lastOr r ' ' :: collapsePunct rest := by
  induction r with
  | nil => cases hr rfl
  | cons a r' ih =>
    cases r' with
    | nil =>
      have hcond : (isTermPunct a && isTermPunct (headOr rest ' ')) = false := by
        rcases hrest with rfl | hrest
        · rw [show isTermPunct (headOr ([] : List Char) ' ') = false by decide,
            Bool.and_false]
        · rw [hrest, Bool.and_false]
      rw [List.singleton_append, collapsePunct, if_neg (by simp [hcond])]
      rfl
    | cons b r'' =>
      rw [List.cons_append, collapsePunct]
      rw [show headOr ((b :: r'') ++ rest) ' ' = b from by rw [List.cons_append, headOr_cons]]
      rw [if_pos (by simp [hall a (by simp), hall b (by simp)])]
      rw [ih (List.cons_ne_nil _ _) (fun x hx => hall x (List.mem_cons_of_mem _ hx))]
      rfl

theorem specCollapsePunct_eq (l : List Char) : specCollapsePunct l = collapsePunct l := by
  induction l using specCollapsePunct.induct with
  | case1 => simp [specCollapsePunct, collapsePunct]
  | case2 c cs h ih =>
    rw [specCollapsePunct, if_pos h]
    have hall : ∀ x ∈ c :: cs.takeWhile isTermPunct, isTermPunct x = true := by
      intro x hx
      rcases List.mem_cons.mp hx with rfl | hx
      · exact h
      · exact List.mem_takeWhile_imp hx
    have hrest : cs.dropWhile isTermPunct = [] ∨
        isTermPunct (headOr (cs.dropWhile isTermPunct) ' ') = false :=
      dropWhile_head_not isTermPunct cs ' '
    have hsplit : c :: cs = (c :: cs.takeWhile isTermPunct) ++ cs.dropWhile isTermPunct := by
      rw [List.cons_append, List.takeWhile_append_dropWhile]
    conv_rhs => rw [hsplit]
    rw [collapsePunct_punct_run _ _ (List.cons_ne_nil _ _) hall hrest, ih]
    cases htk : cs.takeWhile isTermPunct with
    | nil =>
      rw [if_neg (by simp)]
      rfl
    | cons t ts =>
      rw [if_pos (by simp only [List.length_cons]; omega)]
      rfl
  | case3 c cs h ih =>
    rw [specCollapsePunct, if_neg h, collapsePunct_cons_of_not_punct c cs (by simpa using h),
      ih]

theorem spec_cons_not_ws (c : Char) (cs : List Char) (hc : pyIsSpace c = false) :
    specCollapseWs (c :: cs) = c :: specCollapseWs cs := by
  rw [specCollapseWs, if_neg (by simp [hc])]

theorem splitWs_cons_ws (c : Char) (cs : List Char) (hc : pyIsSpace c = true) :
    splitWs (c :: cs) = splitWs cs := by
  rw [splitWs, if_pos hc]

theorem splitWs_cons_ne_nil (c : Char) (cs : List Char) (hc : pyIsSpace c = false) :
    splitWs (c :: cs) ≠ [] := by
  rw [splitWs, if_neg (by simp [hc])]
  by_cases hd : pyIsSpace (headOr cs ' ') = true
  · rw [if_pos hd]
    simp
  · rw [if_neg hd]
    cases splitWs cs <;> simp [consFirst]

theorem joinSpace_splitWs_ne_nil (l : List Char) (h : splitWs l ≠ []) :
    joinSpace (splitWs l) ≠ [] := by
  cases hsp : splitWs l with
  | nil => exact absurd hsp h
  | cons w ws =>
    have hw : w ≠ [] := (splitWs_words l w (by rw [hsp]; exact List.mem_cons_self _ _)).1
    cases ws with
    | nil => simpa [joinSpace] using hw
    | cons v ws' =>
      rw [joinSpace_cons_cons]
      simp

theorem splitWs_lstrip (l : List Char) : splitWs (lstripWs l) = splitWs l := by
  induction l with
  | nil => rfl
  | cons c cs ih =>
    by_cases hc : pyIsSpace c = true
    · rw [show lstripWs (c :: cs) = lstripWs cs from List.dropWhile_cons_of_pos hc, ih,
        splitWs_cons_ws c cs hc]
    · rw [show lstripWs (c :: cs) = c :: cs from List.dropWhile_cons_of_neg (by simpa using hc)]

theorem lstrip_head_not_ws (l : List Char) :
    pyIsSpace (headOr (lstripWs l) 'x') = false := by
  induction l with
  | nil => decide
  | cons c cs ih =>
    by_cases hc : pyIsSpace c = true
    · rw [show lstripWs (c :: cs) = lstripWs cs from List.dropWhile_cons_of_pos hc]
      exact ih
    · rw [show lstripWs (c :: cs) = c :: cs from List.dropWhile_cons_of_neg (by simpa using hc)]
      rw [headOr_cons]
      simpa using hc

theorem lstrip_specCollapseWs (l : List Char) :
    lstripWs (specCollapseWs l) = specCollapseWs (lstripWs l) := by
  induction l with
  | nil => rfl
  | cons c cs ih =>
    by_cases hc : pyIsSpace c = true
    · rw [show lstripWs (c :: cs) = lstripWs cs from List.dropWhile_cons_of_pos hc]
      cases cs with
      | nil =>
        rw [specCollapseWs, if_pos hc, if_neg (by decide)]
        rfl
      | cons f cs' =>
        by_cases hf : pyIsSpace f = true
        · rw [specCollapseWs, if_pos hc, if_pos (by rw [headOr_cons]; exact hf), ih]
        · rw [specCollapseWs, if_pos hc, if_neg (by rw [headOr_cons]; simp [hf])]
          rw [spec_cons_not_ws f cs' (by simpa using hf)]
          rw [show lstripWs (' ' :: f :: specCollapseWs cs') = f :: specCollapseWs cs' from by
            rw [lstripWs, List.dropWhile_cons_of_pos (by decide),
              List.dropWhile_cons_of_neg (by simp [hf])]]
          rw [show lstripWs (f :: cs') = f :: cs' from
            List.dropWhile_cons_of_neg (by simp [hf])]
          rw [spec_cons_not_ws f cs' (by simpa using hf)]
    · have hcf : pyIsSpace c = false := by simpa using hc
      rw [spec_cons_not_ws c cs hcf]
      rw [show lstripWs (c :: specCollapseWs cs) = c :: specCollapseWs cs from
        List.dropWhile_cons_of_neg (by simp [hcf])]
      rw [show lstripWs (c :: cs) = c :: cs from List.dropWhile_cons_of_neg (by simp [hcf])]
      rw [spec_cons_not_ws c cs hcf]

theorem rstrip_specCollapseWs (l : List Char) :
    rstripWs (specCollapseWs l) =
      (if pyIsSpace (headOr l 'x') = true ∧ splitWs l ≠ [] then [' '] else []) ++
        joinSpace (splitWs l) := by
  induction l with
  | nil =>
    rw [if_neg (by intro h2; exact absurd h2.1 (by decide))]
    rfl
  | cons c cs ih =>
    by_cases hc : pyIsSpace c = true
    · cases cs with
      | nil =>
        rw [specCollapseWs, if_pos hc, if_neg (by decide)]
        rw [show specCollapseWs [] = [] from rfl]
        rw [show rstripWs [' '] = [] from by decide]
        rw [splitWs_cons_ws c [] hc]
        rw [if_neg (fun h2 => h2.2 rfl)]
        rfl
      | cons f cs' =>
        by_cases hf : pyIsSpace f = true
        · rw [specCollapseWs, if_pos hc, if_pos (by rw [headOr_cons]; exact hf), ih]
          rw [splitWs_cons_ws c (f :: cs') hc]
          by_cases hsp : splitWs (f :: cs') = []
          · rw [if_neg (fun h2 => h2.2 hsp), if_neg (fun h2 => h2.2 hsp)]
          · rw [if_pos ⟨by rw [headOr_cons]; exact hf, hsp⟩,
              if_pos ⟨by rw [headOr_cons]; exact hc, hsp⟩]
        · have hff : pyIsSpace f = false := by simpa using hf
          rw [specCollapseWs, if_pos hc, if_neg (by rw [headOr_cons]; simp [hf])]
          have hne : splitWs (f :: cs') ≠ [] := splitWs_cons_ne_nil f cs' hff
          have hjne : joinSpace (splitWs (f :: cs')) ≠ [] := joinSpace_splitWs_ne_nil _ hne
          have hr : rstripWs (specCollapseWs (f :: cs')) = joinSpace (splitWs (f :: cs')) := by
            rw [ih, if_neg (by rw [headOr_cons]; intro h2; exact absurd h2.1 (by simp [hf]))]
            rfl
          rw [show rstripWs (' ' :: specCollapseWs (f :: cs')) =
              ' ' :: rstripWs (specCollapseWs (f :: cs')) from by
            simp only [rstripWs]
            rw [if_neg (by rw [hr]; simp [hjne])]]
          rw [hr, splitWs_cons_ws c (f :: cs') hc]
          rw [if_pos ⟨by rw [headOr_cons]; exact hc, hne⟩]
          rfl
    · have hcf : pyIsSpace c = false := by simpa using hc
      rw [spec_cons_not_ws c cs hcf]
      rw [show rstripWs (c :: specCollapseWs cs) = c :: rstripWs (specCollapseWs cs) from by
        simp only [rstripWs]
        rw [if_neg (by simp [hcf])]]
      rw [ih]
      have hrhs : ¬(pyIsSpace (headOr (c :: cs) 'x') = true ∧ splitWs (c :: cs) ≠ []) := by
        rw [headOr_cons]
        intro h2
        exact absurd h2.1 (by simp [hcf])
      rw [if_neg hrhs, List.nil_append]
      cases cs with
      | nil =>
        rw [if_neg (by intro h2; exact absurd h2.1 (by decide))]
        rw [show splitWs [c] = [[c]] from by
          rw [splitWs, if_neg (by simp [hcf]), if_pos (by decide)]
          rfl]
        rfl
      | cons f cs' =>
        by_cases hf : pyIsSpace f = true
        · have hsplit : splitWs (c :: f :: cs') = [c] :: splitWs (f :: cs') := by
            rw [splitWs, if_neg (by simp [hcf]), if_pos (by rw [headOr_cons]; exact hf)]
          rw [hsplit]
          cases hsw : splitWs (f :: cs') with
          | nil =>
            rw [if_neg (fun h2 => h2.2 rfl)]
            rfl
          | cons w ws =>
            rw [if_pos ⟨by rw [headOr_cons]; exact hf, by simp⟩]
            rw [joinSpace_cons_cons]
            rfl
        · have hsplit : splitWs (c :: f :: cs') = consFirst c (splitWs (f :: cs')) := by
            rw [splitWs, if_neg (by simp [hcf]), if_neg (by rw [headOr_cons]; simp [hf])]
          rw [hsplit, joinSpace_consFirst]
          rw [if_neg (by rw [headOr_cons]; intro h2; exact absurd h2.1 (by simp [hf]))]
          rfl

theorem pyStrip_specCollapseWs (l : List Char) :
    pyStrip (specCollapseWs l) = joinSpace (splitWs l) := by
  rw [pyStrip, lstrip_specCollapseWs, rstrip_specCollapseWs]
  rw [if_neg (fun h2 => absurd h2.1 (by simp [lstrip_head_not_ws l]))]
  rw [List.nil_append, splitWs_lstrip]

/-- Claim C8: the code function preprocess_text computes exactly the
Normalize of the specification (whitespace runs to a single space, runs
of two or more terminal punctuation characters to their final character,
ends trimmed, empty input unchanged), stated as equality with the
spec-worded specNormalize; the empty string is a fixed point; and on
scenario A the input collapses to the specified value. -/
theorem C8_normalize_definition (l : List Char) :
    preprocess_text l = specNormalize l
  ∧ preprocess_text [] = ([] : List Char)
  ∧ preprocessStr "Hello!!!  world" = "Hello! world" := by
  refine ⟨?_, rfl, by decide⟩
  rw [specNormalize]
  by_cases h : l.isEmpty = true
  · have : l = [] := by simpa using h
    subst this
    rfl
  · rw [if_neg h, preprocess_text, if_neg h]
    rw [specCollapsePunct_eq]
    conv_rhs => rw [← pyStrip_collapse_pyStrip (specCollapseWs l)]
    rw [pyStrip_specCollapseWs]

end TransService
